import Mathlib

/-!
Verification development for a relational storage engine:
extendible-hash index, buffer pager, bloom filter, grace hash join and
ARIES-lite recovery.  Each component is shallowly embedded as executable
Lean definitions translated from the Go sources; parts of the repository
whose files are absent (hash buckets, page handles, database handlers)
are modelled from the specification and marked as such.
-/

namespace RDBS

/-! ## Extendible hash index (pkg/hash/table.go)

The hash table keeps a global depth, a directory of bucket page numbers
(`buckets`) and, through its pager, one bucket per page.  We model the
pager's pages for a table as a list of buckets indexed by page number;
page allocation appends to this list.  The 64-bit hash function is an
abstract parameter `H`; `Hasher key depth = H key % 2^depth` as in the
source.  `B` stands for the BUCKETSIZE constant from the configuration. -/

structure HashEntry where
  key : Int
  value : Int
deriving Repr, DecidableEq

structure HashBucket where
  depth : Nat
  entries : List HashEntry
deriving Repr, DecidableEq

structure HashTable where
  depth : Nat
  buckets : List Nat
  pages : List HashBucket
deriving Repr, DecidableEq

/-- Hasher from the source: hash of a key at a given depth, i.e.
the stable 64-bit hash reduced modulo 2^depth. -/
def Hasher (H : Int → Nat) (key : Int) (depth : Nat) : Nat :=
  H key % 2 ^ depth

/-- NewHashTable: global depth 2, four fresh bucket pages with local
depth 2 and no keys, directory slots 0..3 pointing at pages 0..3. -/
def newHashTable : HashTable :=
  { depth := 2
    buckets := [0, 1, 2, 3]
    pages := [⟨2, []⟩, ⟨2, []⟩, ⟨2, []⟩, ⟨2, []⟩] }

/-- Directory lookup: page number stored in directory slot i. -/
def dirSlot (t : HashTable) (i : Nat) : Nat :=
  t.buckets.getD i 0

/-- Fetch the bucket stored on page pn. -/
def getPageB (t : HashTable) (pn : Nat) : HashBucket :=
  t.pages.getD pn ⟨0, []⟩

/-- Store bucket b on page pn. -/
def setPage (t : HashTable) (pn : Nat) (b : HashBucket) : HashTable :=
  { t with pages := t.pages.set pn b }

/-- Modelled from the spec: HashBucket.Find (pkg/hash/bucket.go is not in
src/).  A linear scan of the bucket entries returning the first entry
with the given key. -/
def bucketFind (b : HashBucket) (k : Int) : Option HashEntry :=
  b.entries.find? (fun e => e.key = k)

/-- HashTable.Find: hash the key at the global depth, bounds-check the
slot, and scan the corresponding bucket; not-found is None. -/
def Find (H : Int → Nat) (t : HashTable) (k : Int) : Option Int :=
  let h := Hasher H k t.depth
  if h < t.buckets.length then
    (bucketFind (getPageB t (dirSlot t h)) k).map (fun e => e.value)
  else none

/-- HashTable.ExtendTable: increment the global depth and double the
directory by appending it to itself. -/
def ExtendTable (t : HashTable) : HashTable :=
  { t with depth := t.depth + 1, buckets := t.buckets ++ t.buckets }

/-- Directory redirection loop of Split: starting from index `start`,
replace every slot whose index is congruent to newHash modulo 2^d1 by
the new page number (the Go loop walks i = newHash, newHash + 2^d1, ...;
since newHash < 2^d1 this is exactly the congruence condition). -/
def redirectFrom (newPN m newHash : Nat) : Nat → List Nat → List Nat
  | _, [] => []
  | i, pn :: rest =>
      (if i % m = newHash then newPN else pn) :: redirectFrom newPN m newHash (i + 1) rest

/-- HashTable.Split, translated from the source.  The Go recursion can
fail to terminate for adversarial hash functions, so it takes fuel and
returns None when the fuel runs out.  `pn` is the page number of the
bucket being split and `hsh` the hash value passed by the caller. -/
def Split (H : Int → Nat) (B : Nat) : Nat → HashTable → Nat → Nat → Option HashTable
  | 0, _, _, _ => none
  | fuel + 1, t, pn, hsh =>
      let b := getPageB t pn
      let oldHash := hsh % 2 ^ b.depth
      let newHash := oldHash + 2 ^ b.depth
      let t1 := if b.depth = t.depth then ExtendTable t else t
      let d1 := b.depth + 1
      let newPN := t1.pages.length
      let stay := b.entries.filter (fun e => ¬ Hasher H e.key d1 = newHash)
      let move := b.entries.filter (fun e => Hasher H e.key d1 = newHash)
      let t2 := { t1 with
        pages := (t1.pages.set pn ⟨d1, stay⟩) ++ [(⟨d1, move⟩ : HashBucket)] }
      let t3 := { t2 with buckets := redirectFrom newPN (2 ^ d1) newHash 0 t2.buckets }
      if B ≤ stay.length then Split H B fuel t3 pn oldHash
      else if B ≤ move.length then Split H B fuel t3 newPN newHash
      else some t3

/-- HashTable.Insert: hash the key at the global depth, append the entry
to the target bucket (buckets append without checking for duplicate
keys, as modelled from the spec for HashBucket.Insert), and split if the
bucket has become full (numKeys at BUCKETSIZE). -/
def Insert (H : Int → Nat) (B : Nat) (fuel : Nat) (t : HashTable) (k v : Int) :
    Option HashTable :=
  let h := Hasher H k t.depth
  let pn := dirSlot t h
  let b := getPageB t pn
  let b1 : HashBucket := ⟨b.depth, b.entries ++ [⟨k, v⟩]⟩
  let t1 := setPage t pn b1
  if B ≤ b1.entries.length then Split H B fuel t1 pn h else some t1

/-- Modelled from the spec: in-place replacement of the value of the
first entry with the given key (HashBucket.Update scan). -/
def replaceFirst : List HashEntry → Int → Int → List HashEntry
  | [], _, _ => []
  | e :: es, k, v => if e.key = k then ⟨k, v⟩ :: es else e :: replaceFirst es k v

/-- HashTable.Update: in-place replacement in the target bucket; errors
(None) when the key is absent. -/
def Update (H : Int → Nat) (t : HashTable) (k v : Int) : Option HashTable :=
  let h := Hasher H k t.depth
  let pn := dirSlot t h
  let b := getPageB t pn
  match bucketFind b k with
  | none => none
  | some _ => some (setPage t pn ⟨b.depth, replaceFirst b.entries k v⟩)

/-- Modelled from the spec: remove the first entry with the given key
(HashBucket.Delete); None when the key is absent. -/
def eraseFirst : List HashEntry → Int → Option (List HashEntry)
  | [], _ => none
  | e :: es, k =>
      if e.key = k then some es
      else (eraseFirst es k).map (fun l => e :: l)

/-- HashTable.Delete: remove the first matching entry from the target
bucket, without coalescing buckets or shrinking the directory. -/
def Delete (H : Int → Nat) (t : HashTable) (k : Int) : Option HashTable :=
  let h := Hasher H k t.depth
  let pn := dirSlot t h
  let b := getPageB t pn
  match eraseFirst b.entries k with
  | none => none
  | some es => some (setPage t pn ⟨b.depth, es⟩)

/-- Index operations, for reachability statements. -/
inductive TOp where
  | ins (k v : Int)
  | upd (k v : Int)
  | del (k : Int)
deriving Repr, DecidableEq

/-- Apply one index operation; None on error or fuel exhaustion. -/
def applyTOp (H : Int → Nat) (B fuel : Nat) (t : HashTable) : TOp → Option HashTable
  | .ins k v => Insert H B fuel t k v
  | .upd k v => Update H t k v
  | .del k => Delete H t k

/-- Apply a sequence of index operations. -/
def applyTOps (H : Int → Nat) (B fuel : Nat) : List TOp → HashTable → Option HashTable
  | [], t => some t
  | op :: ops, t =>
      match applyTOp H B fuel t op with
      | none => none
      | some t1 => applyTOps H B fuel ops t1

/-- States of the index reachable from the initial table by successful
Insert/Update/Delete calls. -/
def ReachT (H : Int → Nat) (B : Nat) (t : HashTable) : Prop :=
  ∃ fuel ops, applyTOps H B fuel ops newHashTable = some t

/-! ## Bloom filter (pkg/query/bloom_filter.go, BloomFilter part)

The filter has a fixed width and a bit set; Insert sets the two bit
positions produced by the two hash functions, Contains tests both.  The
two hash functions (XxHasher, MurmurHasher in the source, both reducing
modulo the filter size) are abstract parameters `H1`, `H2` of type
key → size → position.  The bit set is modelled as the list of set
positions. -/

structure BloomFilter where
  size : Nat
  bits : List Nat
deriving Repr, DecidableEq

/-- CreateFilter: a filter of the given size with no bits set. -/
def CreateFilter (size : Nat) : BloomFilter :=
  { size := size, bits := [] }

/-- BloomFilter.Insert: set the bits at the two hashed positions. -/
def bloomInsert (H1 H2 : Int → Nat → Nat) (f : BloomFilter) (key : Int) : BloomFilter :=
  { f with bits := H1 key f.size :: H2 key f.size :: f.bits }

/-- BloomFilter.Contains: test the bits at the two hashed positions. -/
def bloomContains (H1 H2 : Int → Nat → Nat) (f : BloomFilter) (key : Int) : Bool :=
  decide (H1 key f.size ∈ f.bits) && decide (H2 key f.size ∈ f.bits)

/-- Insert a list of keys into a filter, in order. -/
def bloomInsertAll (H1 H2 : Int → Nat → Nat) (f : BloomFilter) (ks : List Int) : BloomFilter :=
  ks.foldl (bloomInsert H1 H2) f

/-! ## Pager (src/unnamed/part_000)

Frames are modelled by the pages they hold; the three residency lists
hold the frames in list order (head first, tail last).  The page table
is implicit: a page number is resident exactly when a frame in the
unpinned or pinned list carries it, which the Go code keeps in sync
with the explicit map.  Disk contents are not modelled; FlushPage only
clears the dirty flag.  `Page.Put` (page.go is not in src/) is modelled
from the spec: decrement the pin count and splice the page to the
unpinned tail when it reaches zero. -/

structure PPage where
  pagenum : Int
  pinCount : Int
  dirty : Bool
deriving Repr, DecidableEq

/-- NOPAGE sentinel page number of an unassigned frame. -/
def NOPAGE : Int := -1

structure PagerState where
  hasFile : Bool
  maxPageNum : Int
  free : List PPage
  unpinned : List PPage
  pinned : List PPage
deriving Repr, DecidableEq

/-- NewPager: numpages frames, all in the free list, unassigned.  For a
file-backed pager, Open then sets maxPageNum from the file length. -/
def newPager (numpages : Nat) (hasFile : Bool) (maxPN : Int) : PagerState :=
  { hasFile := hasFile
    maxPageNum := maxPN
    free := List.replicate numpages ⟨NOPAGE, 0, false⟩
    unpinned := []
    pinned := [] }

/-- Find the first frame holding the given page number. -/
def findPage (l : List PPage) (n : Int) : Option PPage :=
  l.find? (fun p => p.pagenum = n)

/-- Remove the first frame holding the given page number. -/
def removePage : List PPage → Int → List PPage
  | [], _ => []
  | p :: ps, n => if p.pagenum = n then ps else p :: removePage ps n

/-- Replace (in place) the first frame holding page number n by q. -/
def replacePage : List PPage → Int → PPage → List PPage
  | [], _, _ => []
  | p :: ps, n, q => if p.pagenum = n then q :: ps else p :: replacePage ps n q

/-- Pager.NewPage: take a frame from the free list, else (file-backed
only) evict the head of the unpinned list after flushing it; the frame
comes back bound to pagenum with pin count 1 and clean.  The returned
state has the frame removed from its list; GetPage pushes it to the
pinned tail. -/
def NewPage (s : PagerState) (pagenum : Int) : Option (PPage × PagerState) :=
  match s.free with
  | _ :: fs => some (⟨pagenum, 1, false⟩, { s with free := fs })
  | [] =>
      if ¬ s.hasFile then none
      else
        match s.unpinned with
        | _ :: us =>
            -- flush the victim (the frame leaves residency, so only the
            -- disk write, which we do not model, depends on its dirty bit)
            some (⟨pagenum, 1, false⟩, { s with unpinned := us })
        | [] => none

/-- Pager.GetPage: error on negative page numbers; bump and (for
unpinned residents) splice to the pinned tail when resident; otherwise
acquire a frame with NewPage, read it from disk when inside the used
range or mark it dirty and grow maxPageNum when beyond it, and insert
it at the pinned tail. -/
def GetPage (s : PagerState) (pagenum : Int) : Option PagerState :=
  if pagenum < 0 then none
  else
    match findPage s.unpinned pagenum with
    | some p =>
        some { s with
          unpinned := removePage s.unpinned pagenum
          pinned := s.pinned ++ [{ p with pinCount := p.pinCount + 1 }] }
    | none =>
        match findPage s.pinned pagenum with
        | some p =>
            some { s with
              pinned := replacePage s.pinned pagenum { p with pinCount := p.pinCount + 1 } }
        | none =>
            match NewPage s pagenum with
            | none => none
            | some (page, s1) =>
                if pagenum < s1.maxPageNum then
                  -- read from disk; no residency change
                  some { s1 with pinned := s1.pinned ++ [page] }
                else
                  some { s1 with
                    maxPageNum := s1.maxPageNum + 1
                    pinned := s1.pinned ++ [{ page with dirty := true }] }

/-- Page.Put, modelled from the spec: decrement the pin count of the
resident page and splice it to the unpinned tail when the count reaches
zero.  None when the page is not resident (a Put without a matching
GetPage handle). -/
def PutPage (s : PagerState) (pagenum : Int) : Option PagerState :=
  match findPage s.pinned pagenum with
  | some p =>
      let p1 := { p with pinCount := p.pinCount - 1 }
      if p1.pinCount = 0 then
        some { s with
          pinned := removePage s.pinned pagenum
          unpinned := s.unpinned ++ [p1] }
      else
        some { s with pinned := replacePage s.pinned pagenum p1 }
  | none =>
      match findPage s.unpinned pagenum with
      | some p =>
          let p1 := { p with pinCount := p.pinCount - 1 }
          if p1.pinCount = 0 then
            some { s with unpinned := removePage s.unpinned pagenum ++ [p1] }
          else
            some { s with unpinned := replacePage s.unpinned pagenum p1 }
      | none => none

/-- Pager operations for reachability statements. -/
inductive POp where
  | get (n : Int)
  | put (n : Int)
deriving Repr, DecidableEq

/-- Apply one pager operation. -/
def applyPOp (s : PagerState) : POp → Option PagerState
  | .get n => GetPage s n
  | .put n => PutPage s n

/-- Apply a sequence of pager operations. -/
def applyPOps : List POp → PagerState → Option PagerState
  | [], s => some s
  | op :: ops, s =>
      match applyPOp s op with
      | none => none
      | some s1 => applyPOps ops s1

/-- Pager states reachable from a fresh pager by GetPage/Put.  A Put is
issued through a page handle returned by GetPage whose pin is still
held, so it addresses a resident pinned page. -/
inductive ReachP (numpages : Nat) (hasFile : Bool) (maxPN : Int) : PagerState → Prop where
  | init : ReachP numpages hasFile maxPN (newPager numpages hasFile maxPN)
  | get {s s1 : PagerState} {n : Int} :
      ReachP numpages hasFile maxPN s → GetPage s n = some s1 →
      ReachP numpages hasFile maxPN s1
  | put {s s1 : PagerState} {n : Int} :
      ReachP numpages hasFile maxPN s →
      (∃ p, findPage s.pinned n = some p) → PutPage s n = some s1 →
      ReachP numpages hasFile maxPN s1

/-- Sum of the pin counts of the pages on a list. -/
def pinSum (l : List PPage) : Int :=
  (l.map (fun p => p.pinCount)).sum

/-! ## Recovery (pkg/query/bloom_filter.go, RecoveryManager part)

Transaction ids (uuids in the source) are modelled as naturals; the
write-ahead log is the list of records appended so far.  The Database
and its handlers (pkg/db is not in src/) are modelled from the spec as
logical tables: HandleInsert errors on a duplicate key, HandleUpdate
and HandleDelete error on a missing key.  The TransactionManager
(pkg/concurrency is not in src/) is modelled from the spec as the set
of running transaction ids, with Begin adding and Commit removing an
id. -/

inductive RAction where
  | ins
  | upd
  | del
deriving Repr, DecidableEq

inductive LogRec where
  | table (tblType tblName : String)
  | edit (id : Nat) (tname : String) (action : RAction) (key oldval newval : Int)
  | start (id : Nat)
  | commit (id : Nat)
  | chkpt (ids : List Nat)
deriving Repr, DecidableEq

/-- Is the record a start record? -/
def isStart : LogRec → Bool
  | .start _ => true
  | _ => false

/-- Is the record an edit record? -/
def isEdit : LogRec → Bool
  | .edit _ _ _ _ _ _ => true
  | _ => false

/-- A logical database: association list from table name to the table
contents, an association list from key to value. -/
abbrev Database := List (String × List (Int × Int))

/-- Association-list lookup. -/
def alookup {α β : Type} [DecidableEq α] : List (α × β) → α → Option β
  | [], _ => none
  | (a, b) :: r, x => if a = x then some b else alookup r x

/-- Association-list update of an existing key. -/
def aupdate {α β : Type} [DecidableEq α] : List (α × β) → α → β → List (α × β)
  | [], _, _ => []
  | (a, b) :: r, x, y => if a = x then (a, y) :: r else (a, b) :: aupdate r x y

/-- Association-list removal of the first binding of a key. -/
def aerase {α β : Type} [DecidableEq α] : List (α × β) → α → List (α × β)
  | [], _ => []
  | (a, b) :: r, x => if a = x then r else (a, b) :: aerase r x

/-- Modelled from the spec: HandleCreateTable creates a fresh empty
table; error when the name exists. -/
def dbCreate (d : Database) (tname : String) : Except String Database :=
  match alookup d tname with
  | some _ => .error "table exists"
  | none => .ok (d ++ [(tname, [])])

/-- Modelled from the spec: HandleInsert adds a key/value pair; error
on a missing table or a duplicate key. -/
def dbInsert (d : Database) (tname : String) (k v : Int) : Except String Database :=
  match alookup d tname with
  | none => .error "no table"
  | some tbl =>
      match alookup tbl k with
      | some _ => .error "duplicate key"
      | none => .ok (aupdate d tname (tbl ++ [(k, v)]))

/-- Modelled from the spec: HandleUpdate replaces the value of an
existing key; error on a missing table or key. -/
def dbUpdate (d : Database) (tname : String) (k v : Int) : Except String Database :=
  match alookup d tname with
  | none => .error "no table"
  | some tbl =>
      match alookup tbl k with
      | none => .error "no key"
      | some _ => .ok (aupdate d tname (aupdate tbl k v))

/-- Modelled from the spec: HandleDelete removes an existing key; error
on a missing table or key. -/
def dbDelete (d : Database) (tname : String) (k : Int) : Except String Database :=
  match alookup d tname with
  | none => .error "no table"
  | some tbl =>
      match alookup tbl k with
      | none => .error "no key"
      | some _ => .ok (aupdate d tname (aerase tbl k))

/-- Logical lookup of a key in a table of the database. -/
def dbFind (d : Database) (tname : String) (k : Int) : Option Int :=
  match alookup d tname with
  | none => none
  | some tbl => alookup tbl k

/-- Recovery-manager state: the database, the in-memory per-transaction
record stacks, the log file contents, and the transaction manager's set
of running transactions. -/
structure RMState where
  db : Database
  txStack : List (Nat × List LogRec)
  logFile : List LogRec
  running : List Nat
deriving DecidableEq

/-- Modelled from the spec: TransactionManager.Begin registers a
transaction as running. -/
def tmBegin (s : RMState) (id : Nat) : RMState :=
  if id ∈ s.running then s else { s with running := s.running ++ [id] }

/-- Modelled from the spec: TransactionManager.Commit removes a
transaction from the running list. -/
def tmCommit (s : RMState) (id : Nat) : RMState :=
  { s with running := s.running.filter (fun x => ¬ x = id) }

/-- Push a record onto a transaction's in-memory stack. -/
def pushTx (st : List (Nat × List LogRec)) (id : Nat) (r : LogRec) :
    List (Nat × List LogRec) :=
  match alookup st id with
  | none => st ++ [(id, [r])]
  | some l => aupdate st id (l ++ [r])

/-- RecoveryManager.Edit: append an edit record to the log file and to
the transaction's stack. -/
def rmEdit (s : RMState) (id : Nat) (tname : String) (a : RAction)
    (k oldv newv : Int) : RMState :=
  let r : LogRec := .edit id tname a k oldv newv
  { s with logFile := s.logFile ++ [r], txStack := pushTx s.txStack id r }

/-- RecoveryManager.Start: append a start record to the log file and to
the transaction's stack. -/
def rmStart (s : RMState) (id : Nat) : RMState :=
  let r : LogRec := .start id
  { s with logFile := s.logFile ++ [r], txStack := pushTx s.txStack id r }

/-- RecoveryManager.Commit as written in the source: delete the
transaction's stack entry, append a commit record to the log file, and
then append the commit record to the (just deleted, hence recreated)
stack entry. -/
def rmCommit (s : RMState) (id : Nat) : RMState :=
  let st1 := aerase s.txStack id
  let r : LogRec := .commit id
  { s with logFile := s.logFile ++ [r], txStack := pushTx st1 id r }

/-- The variant of RecoveryManager.Commit without the trailing append
to the transaction stack: the entry stays deleted. -/
def rmCommitElided (s : RMState) (id : Nat) : RMState :=
  { s with logFile := s.logFile ++ [LogRec.commit id], txStack := aerase s.txStack id }

/-- Modelled from the spec: the recovery-flavoured HandleInsert used by
Undo, which applies the logical insert and also writes the
compensation edit record (log file and transaction stack). -/
def rhInsert (s : RMState) (id : Nat) (tname : String) (k v : Int) :
    Except String RMState :=
  match dbInsert s.db tname k v with
  | .error e => .error e
  | .ok d => .ok (rmEdit { s with db := d } id tname .ins k 0 v)

/-- Modelled from the spec: the recovery-flavoured HandleUpdate used by
Undo. -/
def rhUpdate (s : RMState) (id : Nat) (tname : String) (k v : Int) :
    Except String RMState :=
  let oldv := (dbFind s.db tname k).getD 0
  match dbUpdate s.db tname k v with
  | .error e => .error e
  | .ok d => .ok (rmEdit { s with db := d } id tname .upd k oldv v)

/-- Modelled from the spec: the recovery-flavoured HandleDelete used by
Undo. -/
def rhDelete (s : RMState) (id : Nat) (tname : String) (k : Int) :
    Except String RMState :=
  let oldv := (dbFind s.db tname k).getD 0
  match dbDelete s.db tname k with
  | .error e => .error e
  | .ok d => .ok (rmEdit { s with db := d } id tname .del k oldv 0)

/-- RecoveryManager.Redo: re-apply a table or edit record logically via
the plain database handlers, with INSERT falling back to UPDATE on a
duplicate key and UPDATE falling back to INSERT on a missing key. -/
def Redo (d : Database) : LogRec → Except String Database
  | .table _ tblName => dbCreate d tblName
  | .edit _ tname a k _ newv =>
      match a with
      | .ins =>
          match dbInsert d tname k newv with
          | .ok d1 => .ok d1
          | .error _ => dbUpdate d tname k newv
      | .upd =>
          match dbUpdate d tname k newv with
          | .ok d1 => .ok d1
          | .error _ => dbInsert d tname k newv
      | .del => dbDelete d tname k
  | _ => .error "can only redo edit logs"

/-- RecoveryManager.Undo: apply the inverse of an edit record via the
recovery-flavoured handlers: INSERT becomes DELETE, UPDATE reverts to
the old value, DELETE becomes INSERT of the old value. -/
def Undo (s : RMState) : LogRec → Except String RMState
  | .edit id tname a k oldv _ =>
      match a with
      | .ins => rhDelete s id tname k
      | .upd => rhUpdate s id tname k oldv
      | .del => rhInsert s id tname k oldv
  | _ => .error "can only undo edit logs"

/-- RecoveryManager.Checkpoint, at the logical level: flushing pages
and the directory snapshot do not change the logical state, so the
visible effect is the appended checkpoint record listing the
transactions present in the stack (the Go map iteration order is
unspecified; the model uses stack order). -/
def Checkpoint (s : RMState) : RMState :=
  { s with logFile := s.logFile ++ [LogRec.chkpt (s.txStack.map (fun e => e.1))] }

/-- Add a transaction id to the active set (a Go map of booleans). -/
def addActive (act : List Nat) (id : Nat) : List Nat :=
  if id ∈ act then act else act ++ [id]

/-- Index of the most recent checkpoint record, 0 when there is none;
readLogs (log reader, not in src/) is modelled from the spec as
returning all records and this position. -/
def lastChkptAux : Nat → Nat → List LogRec → Nat
  | _, best, [] => best
  | i, best, r :: rs =>
      lastChkptAux (i + 1) (match r with | .chkpt _ => i | _ => best) rs

/-- Position of the most recent checkpoint in the log. -/
def lastChkptIdx (log : List LogRec) : Nat :=
  lastChkptAux 0 0 log

/-- One step of the forward (redo) phase of Recover.  Redo errors are
discarded by the source (their return value is ignored), leaving the
database unchanged. -/
def redoStep : RMState × List Nat → LogRec → RMState × List Nat
  | (s, act), .table ty nm =>
      (match Redo s.db (.table ty nm) with
       | .ok d => ({ s with db := d }, act)
       | .error _ => (s, act))
  | (s, act), .chkpt ids =>
      (ids.foldl tmBegin s, ids.foldl addActive act)
  | (s, act), .edit id tname a k oldv newv =>
      (match Redo s.db (.edit id tname a k oldv newv) with
       | .ok d => ({ s with db := d }, addActive act id)
       | .error _ => (s, addActive act id))
  | (s, act), .start id => (tmBegin s id, addActive act id)
  | (s, act), .commit id =>
      (tmCommit s id, act.filter (fun x => ¬ x = id))

/-- Backward (undo) phase of Recover, consuming the log in reverse
order: undo every edit of a transaction that never committed, and on
reaching such a transaction's start record write a synthetic commit
and commit it in the transaction manager. -/
def undoPhase : RMState → List Nat → List LogRec → Except String RMState
  | s, _, [] => .ok s
  | s, act, r :: rs =>
      match r with
      | .edit id tname a k oldv newv =>
          if id ∈ act then
            match Undo s (.edit id tname a k oldv newv) with
            | .error e => .error e
            | .ok s1 => undoPhase s1 act rs
          else undoPhase s act rs
      | .start id =>
          if id ∈ act then
            undoPhase (tmCommit (rmCommit s id) id) (act.filter (fun x => ¬ x = id)) rs
          else undoPhase s act rs
      | _ => undoPhase s act rs

/-- RecoveryManager.Recover: replay every record from the most recent
checkpoint forward, tracking active transactions, then walk the whole
log backwards undoing the edits of transactions that never committed. -/
def Recover (log : List LogRec) (s : RMState) : Except String RMState :=
  let ptr := lastChkptIdx log
  let p := (log.drop ptr).foldl redoStep (s, [])
  undoPhase p.1 p.2 log.reverse

/-- Rollback's LIFO loop over a transaction stack given in reverse
order: undo the edit records, skip everything else. -/
def rollbackLoop : RMState → List LogRec → Except String RMState
  | s, [] => .ok s
  | s, r :: rs =>
      if isEdit r then
        match Undo s r with
        | .error e => .error e
        | .ok s1 => rollbackLoop s1 rs
      else rollbackLoop s rs

/-- RecoveryManager.Rollback: success without any effect when the
transaction has no stack entry; malformed-transaction error when the
first stacked record is not a start; otherwise undo the stacked edits
in LIFO order and finish by committing (log commit record plus
transaction-manager commit). -/
def Rollback (s : RMState) (id : Nat) : Except String RMState :=
  match alookup s.txStack id with
  | none => .ok s
  | some stack =>
      match stack with
      | [] => .ok (tmCommit (rmCommit s id) id)
      | r0 :: _ =>
          if ¬ isStart r0 then .error "incorrect format"
          else
            match rollbackLoop s stack.reverse with
            | .error e => .error e
            | .ok s1 => .ok (tmCommit (rmCommit s1 id) id)

/-- Rollback in the variant system whose Commit omits the trailing
stack append (everything else unchanged). -/
def RollbackElided (s : RMState) (id : Nat) : Except String RMState :=
  match alookup s.txStack id with
  | none => .ok s
  | some stack =>
      match stack with
      | [] => .ok (tmCommit (rmCommitElided s id) id)
      | r0 :: _ =>
          if ¬ isStart r0 then .error "incorrect format"
          else
            match rollbackLoop s stack.reverse with
            | .error e => .error e
            | .ok s1 => .ok (tmCommit (rmCommitElided s1 id) id)

/-! ## Grace hash join (pkg/query/hash_join.go)

Each source is materialised into a fresh temporary extendible-hash
index, with the pair transposed when the join is on the value side; the
two global depths are aligned by doubling the smaller directory; then
each directory index pairs the two buckets at that slot, bucket pairs
already probed are skipped, and each probe builds a bloom filter over
the left bucket keys and emits every key-equal pair, restoring the
original orientation.  The sequential model collects, for every unique
bucket pair, the full list of pairs its probe task emits; a probe task
whose buckets have different local depths fails before emitting
anything, which the model renders as an empty emission list. -/

structure EntryPair where
  l : HashEntry
  r : HashEntry
deriving Repr, DecidableEq

/-- The side of an original entry the equi-join is on. -/
def keySide (useKey : Bool) (e : HashEntry) : Int :=
  if useKey then e.key else e.value

/-- Transposition applied when building the temporary index (and its
own inverse, used when restoring the orientation on emission). -/
def transpose (useKey : Bool) (e : HashEntry) : HashEntry :=
  if useKey then e else ⟨e.value, e.key⟩

/-- buildHashIndex: insert every source entry into a fresh hash index,
transposed when joining on the value side. -/
def buildHashIndex (H : Int → Nat) (B fuel : Nat) (src : List HashEntry)
    (useKey : Bool) : Option HashTable :=
  src.foldlM
    (fun t e => Insert H B fuel t (transpose useKey e).key (transpose useKey e).value)
    newHashTable

/-- Iterated directory doubling. -/
def extendN : Nat → HashTable → HashTable
  | 0, t => t
  | n + 1, t => extendN n (ExtendTable t)

/-- Depth alignment loop of Join: extend the smaller table until the
global depths agree. -/
def alignTables (lt rt : HashTable) : HashTable × HashTable :=
  if lt.depth < rt.depth then (extendN (rt.depth - lt.depth) lt, rt)
  else (lt, extendN (lt.depth - rt.depth) rt)

/-- probeBuckets: fail (emit nothing) when the two local depths differ;
otherwise build a bloom filter over the left keys and, for every right
entry passing the filter, emit each key-equal left entry with the
original orientations restored. -/
def probeBuckets (H1 H2 : Int → Nat → Nat) (fsize : Nat) (lb rb : HashBucket)
    (jl jr : Bool) : List EntryPair :=
  if ¬ lb.depth = rb.depth then []
  else
    let bf := bloomInsertAll H1 H2 (CreateFilter fsize) (lb.entries.map (fun e => e.key))
    rb.entries.flatMap (fun re =>
      if bloomContains H1 H2 bf re.key then
        lb.entries.filterMap (fun le =>
          if le.key = re.key then some ⟨transpose jl le, transpose jr re⟩ else none)
      else [])

/-- Probe dispatch loop of Join: walk the directory indices, skip
bucket pairs already seen, and concatenate the probe emissions of the
new pairs. -/
def probeAll (H1 H2 : Int → Nat → Nat) (fsize : Nat) (lt rt : HashTable)
    (jl jr : Bool) : List Nat → List (Nat × Nat) → List EntryPair
  | [], _ => []
  | i :: is, seen =>
      let pr := (dirSlot lt i, dirSlot rt i)
      if pr ∈ seen then probeAll H1 H2 fsize lt rt jl jr is seen
      else
        probeBuckets H1 H2 fsize (getPageB lt pr.1) (getPageB rt pr.2) jl jr
          ++ probeAll H1 H2 fsize lt rt jl jr is (pr :: seen)

/-- Join: build the two temporary indexes, align their depths, and run
every unique bucket-pair probe, collecting all emissions. -/
def Join (H : Int → Nat) (B fuel : Nat) (H1 H2 : Int → Nat → Nat) (fsize : Nat)
    (ls rs : List HashEntry) (jl jr : Bool) : Option (List EntryPair) :=
  match buildHashIndex H B fuel ls jl, buildHashIndex H B fuel rs jr with
  | some lt0, some rt0 =>
      let p := alignTables lt0 rt0
      some (probeAll H1 H2 fsize p.1 p.2 jl jr (List.range p.1.buckets.length) [])
  | _, _ => none

/-- Spec-side condition for the amended join claim: after building and
aligning, every directory index pairs two buckets of equal local
depth, so no probe task fails its depth check.  Follows the spec's
reading of the probe phase rather than any one source function. -/
def pairedDepthsOK (lt rt : HashTable) : Bool :=
  (List.range lt.buckets.length).all (fun i =>
    (getPageB lt (dirSlot lt i)).depth == (getPageB rt (dirSlot rt i)).depth)

/-- The paired-depth condition evaluated on the two built and aligned
temporary indexes of a join input (vacuous when a build fails). -/
def joinDepthsAligned (H : Int → Nat) (B fuel : Nat) (ls rs : List HashEntry)
    (jl jr : Bool) : Bool :=
  match buildHashIndex H B fuel ls jl, buildHashIndex H B fuel rs jr with
  | some lt0, some rt0 =>
      pairedDepthsOK (alignTables lt0 rt0).1 (alignTables lt0 rt0).2
  | _, _ => true

/-! ## Split bookkeeping

Abbreviations for the quantities Split computes from its arguments,
used to state the split theorems: the local depth of the split bucket,
the hash value of the new bucket, and the two sides of the entry
partition. -/

/-- Local depth of the bucket on page pn. -/
def localDepth (t : HashTable) (pn : Nat) : Nat :=
  (getPageB t pn).depth

/-- The hash value owned by the new bucket: oldHash + 2^d. -/
def splitNewHash (t : HashTable) (pn hsh : Nat) : Nat :=
  hsh % 2 ^ localDepth t pn + 2 ^ localDepth t pn

/-- The entries Split moves to the new bucket. -/
def splitMoved (H : Int → Nat) (t : HashTable) (pn hsh : Nat) : List HashEntry :=
  (getPageB t pn).entries.filter
    (fun e => Hasher H e.key (localDepth t pn + 1) = splitNewHash t pn hsh)

/-- The entries Split keeps in the old bucket. -/
def splitStayed (H : Int → Nat) (t : HashTable) (pn hsh : Nat) : List HashEntry :=
  (getPageB t pn).entries.filter
    (fun e => ¬ Hasher H e.key (localDepth t pn + 1) = splitNewHash t pn hsh)

/-- The directory-doubling step of Split, applied when the bucket is at
the global depth. -/
def splitTE (t : HashTable) (pn : Nat) : HashTable :=
  if (getPageB t pn).depth = t.depth then ExtendTable t else t

/-- One non-recursive round of Split: double the directory if needed,
repartition the bucket into stay/move halves on pages pn and
pages.length, and redirect the congruent directory slots. -/
def splitStep (H : Int → Nat) (t : HashTable) (pn hsh : Nat) : HashTable :=
  let b := getPageB t pn
  let oldHash := hsh % 2 ^ b.depth
  let newHash := oldHash + 2 ^ b.depth
  let t1 := splitTE t pn
  let d1 := b.depth + 1
  let newPN := t1.pages.length
  let stay := b.entries.filter (fun e => ¬ Hasher H e.key d1 = newHash)
  let move := b.entries.filter (fun e => Hasher H e.key d1 = newHash)
  let t2 := { t1 with
    pages := (t1.pages.set pn ⟨d1, stay⟩) ++ [(⟨d1, move⟩ : HashBucket)] }
  { t2 with buckets := redirectFrom newPN (2 ^ d1) newHash 0 t2.buckets }

/-- The well-formedness invariant of an extendible-hash table: the
directory has 2^depth slots, slots point to allocated pages, local
depths are bounded by the global depth, every key sits in a bucket
whose slot matches its hash at the bucket's local depth, two slots
share a bucket exactly when they are congruent modulo 2^(local depth),
and every allocated page is reachable from the directory. -/
structure TableWF (H : Int → Nat) (t : HashTable) : Prop where
  len : t.buckets.length = 2 ^ t.depth
  ptr : ∀ i < t.buckets.length, dirSlot t i < t.pages.length
  ldep : ∀ i < t.buckets.length, (getPageB t (dirSlot t i)).depth ≤ t.depth
  keys : ∀ i < t.buckets.length, ∀ e ∈ (getPageB t (dirSlot t i)).entries,
      H e.key % 2 ^ (getPageB t (dirSlot t i)).depth =
        i % 2 ^ (getPageB t (dirSlot t i)).depth
  cls : ∀ i < t.buckets.length, ∀ j < t.buckets.length,
      (dirSlot t i = dirSlot t j ↔
        i % 2 ^ (getPageB t (dirSlot t i)).depth =
          j % 2 ^ (getPageB t (dirSlot t i)).depth)
  ptd : ∀ pn < t.pages.length, ∃ i, i < t.buckets.length ∧ dirSlot t i = pn

/-- The entries carrying key k in the bucket its hash selects. -/
def keyEntries (H : Int → Nat) (t : HashTable) (k : Int) : List HashEntry :=
  (getPageB t (dirSlot t (Hasher H k t.depth))).entries.filter (fun e => e.key = k)

/-- All entries stored across the physical bucket pages of a table. -/
def tableEntries (t : HashTable) : List HashEntry :=
  (t.pages.map (fun b => b.entries)).flatten

/-! ## Concrete instances and scenario states

Concrete hash functions and states used by counterexamples and
witnesses.  `natHash` plays the role of the stable 64-bit hash and the
two position hashes instantiate the bloom pair. -/

/-- A concrete stable hash for witnesses and counterexamples. -/
def natHash : Int → Nat := Int.natAbs

/-- A concrete first bloom position hash. -/
def posHash1 : Int → Nat → Nat := fun k m => k.natAbs % m

/-- A concrete second bloom position hash. -/
def posHash2 : Int → Nat → Nat := fun k m => (k.natAbs * 7 + 3) % m

/-- A table whose slot-0 bucket holds three keys hashing to 0 at depth
2, one past BUCKETSIZE = 3, ready to be split. -/
def c3table : HashTable :=
  ⟨2, [0, 1, 2, 3],
    [⟨2, [⟨0, 10⟩, ⟨4, 11⟩, ⟨8, 12⟩]⟩, ⟨2, []⟩, ⟨2, []⟩, ⟨2, []⟩]⟩

/-- The WAL of scenario S5: a table record, committed transaction 1
(START, INSERT(5,50), COMMIT), then transaction 2 (START, UPDATE(5,99))
with no commit, interrupted by a crash. -/
def c5log : List LogRec :=
  [.table "hash" "t", .start 1, .edit 1 "t" .ins 5 0 50, .commit 1,
   .start 2, .edit 2 "t" .upd 5 50 99]

/-- A fresh recovery-manager state holding the scenario S5 WAL. -/
def c5init : RMState := ⟨[], [], c5log, []⟩

/-- A recovery-manager state with one empty table and no transaction
history. -/
def c9state : RMState := ⟨[("t", [])], [], [], []⟩

/-- A recovery-manager state in which transaction 3 has started and
inserted (1,1) and (2,2) and updated 1 to 9 (scenario S6). -/
def c7state : RMState :=
  ⟨[("t", [(1, 9), (2, 2)])],
   [(3, [.start 3, .edit 3 "t" .ins 1 0 1, .edit 3 "t" .ins 2 0 2,
         .edit 3 "t" .upd 1 1 9])],
   [.start 3, .edit 3 "t" .ins 1 0 1, .edit 3 "t" .ins 2 0 2,
    .edit 3 "t" .upd 1 1 9],
   [3]⟩

/-- The pager residency invariant: the three lists partition the fixed
set of frames, pinned pages carry at least one pin and unpinned pages
carry none. -/
def pagerInv (N : Nat) (s : PagerState) : Prop :=
  s.free.length + s.unpinned.length + s.pinned.length = N ∧
    (∀ p ∈ s.pinned, 1 ≤ p.pinCount) ∧ (∀ p ∈ s.unpinned, p.pinCount = 0)

/-! ## List access helpers -/

theorem getD_out_of_range {α : Type} (l : List α) (i : Nat) (d : α)
    (h : l.length ≤ i) : l.getD i d = d := by
  induction l generalizing i with
  | nil => simp [List.getD]
  | cons a as ih =>
      cases i with
      | zero => simp at h
      | succ j =>
          rw [List.getD_cons_succ]
          exact ih j (by simpa using h)

theorem getD_append_lt {α : Type} (l l2 : List α) (i : Nat) (d : α)
    (h : i < l.length) : (l ++ l2).getD i d = l.getD i d := by
  induction l generalizing i with
  | nil => simp at h
  | cons a as ih =>
      cases i with
      | zero => rfl
      | succ j =>
          rw [List.cons_append, List.getD_cons_succ, List.getD_cons_succ]
          exact ih j (by simpa using h)

theorem getD_append_ge {α : Type} (l l2 : List α) (i : Nat) (d : α)
    (h : l.length ≤ i) : (l ++ l2).getD i d = l2.getD (i - l.length) d := by
  induction l generalizing i with
  | nil => simp
  | cons a as ih =>
      cases i with
      | zero => simp at h
      | succ j =>
          rw [List.cons_append, List.getD_cons_succ]
          rw [ih j (by simpa using h)]
          simp [Nat.succ_sub_succ]

theorem getD_set_self {α : Type} (l : List α) (i : Nat) (x d : α)
    (h : i < l.length) : (l.set i x).getD i d = x := by
  induction l generalizing i with
  | nil => simp at h
  | cons a as ih =>
      cases i with
      | zero => rfl
      | succ j =>
          rw [List.set_cons_succ, List.getD_cons_succ]
          exact ih j (by simpa using h)

theorem getD_set_other {α : Type} (l : List α) (i j : Nat) (x d : α)
    (h : ¬ i = j) : (l.set i x).getD j d = l.getD j d := by
  induction l generalizing i j with
  | nil => simp [List.set]
  | cons a as ih =>
      cases i with
      | zero =>
          cases j with
          | zero => exact absurd rfl h
          | succ m => rfl
      | succ n =>
          cases j with
          | zero => rfl
          | succ m =>
              rw [List.set_cons_succ, List.getD_cons_succ, List.getD_cons_succ]
              exact ih n m (fun hc => h (by rw [hc]))

/-- Characterization of the redirection loop: the slot at offset j of
the directory is replaced exactly when its absolute index is congruent
to newHash. -/
theorem redirectFrom_getD (q m c : Nat) (l : List Nat) (i0 j : Nat) (d : Nat)
    (h : j < l.length) :
    (redirectFrom q m c i0 l).getD j d =
      if (i0 + j) % m = c then q else l.getD j d := by
  induction l generalizing i0 j with
  | nil => simp at h
  | cons a as ih =>
      cases j with
      | zero =>
          simp [redirectFrom]
      | succ n =>
          rw [redirectFrom, List.getD_cons_succ, List.getD_cons_succ]
          rw [ih (i0 + 1) n (by simpa using h)]
          have : i0 + 1 + n = i0 + (n + 1) := by omega
          rw [this]

theorem redirectFrom_length (q m c : Nat) (l : List Nat) (i0 : Nat) :
    (redirectFrom q m c i0 l).length = l.length := by
  induction l generalizing i0 with
  | nil => rfl
  | cons a as ih => simp [redirectFrom, ih]

/-! ## Bloom filter theorems -/

theorem bloomInsert_size (H1 H2 : Int → Nat → Nat) (f : BloomFilter) (k : Int) :
    (bloomInsert H1 H2 f k).size = f.size := rfl

theorem bloomInsertAll_size (H1 H2 : Int → Nat → Nat) (ks : List Int) (f : BloomFilter) :
    (bloomInsertAll H1 H2 f ks).size = f.size := by
  induction ks generalizing f with
  | nil => rfl
  | cons a as ih => exact ih (bloomInsert H1 H2 f a)

theorem bloomInsertAll_mem (H1 H2 : Int → Nat → Nat) (ks : List Int) (f : BloomFilter)
    (x : Nat) (hx : x ∈ f.bits) : x ∈ (bloomInsertAll H1 H2 f ks).bits := by
  induction ks generalizing f with
  | nil => exact hx
  | cons a as ih =>
      exact ih (bloomInsert H1 H2 f a) (by simp [bloomInsert, hx])

theorem bloom_no_false_negative (H1 H2 : Int → Nat → Nat) (ks : List Int) (k : Int)
    (f : BloomFilter) (hk : k ∈ ks) :
    bloomContains H1 H2 (bloomInsertAll H1 H2 f ks) k = true := by
  induction ks generalizing f with
  | nil => cases hk
  | cons a as ih =>
      rcases List.mem_cons.mp hk with h | h
      · subst h
        have hs : (bloomInsertAll H1 H2 (bloomInsert H1 H2 f k) as).size = f.size :=
          bloomInsertAll_size H1 H2 as (bloomInsert H1 H2 f k)
        have h1 : H1 k f.size ∈ (bloomInsert H1 H2 f k).bits := by
          simp [bloomInsert]
        have h2 : H2 k f.size ∈ (bloomInsert H1 H2 f k).bits := by
          simp [bloomInsert]
        have m1 := bloomInsertAll_mem H1 H2 as (bloomInsert H1 H2 f k) _ h1
        have m2 := bloomInsertAll_mem H1 H2 as (bloomInsert H1 H2 f k) _ h2
        show bloomContains H1 H2 (bloomInsertAll H1 H2 (bloomInsert H1 H2 f k) as) k = true
        unfold bloomContains
        rw [hs, Bool.and_eq_true, decide_eq_true_iff, decide_eq_true_iff]
        exact ⟨m1, m2⟩
      · exact ih (bloomInsert H1 H2 f a) h

/-- C8: for every sequence of keys inserted into a bloom filter of any
fixed width and any pair of position hash functions, Contains returns
true for every inserted key: there are no false negatives, because
Insert only ever sets bits and no bit is cleared. -/
theorem C8_bloom_no_false_negatives (H1 H2 : Int → Nat → Nat) (m : Nat)
    (ks : List Int) (k : Int) (hk : k ∈ ks) :
    bloomContains H1 H2 (bloomInsertAll H1 H2 (CreateFilter m) ks) k = true :=
  bloom_no_false_negative H1 H2 ks k (CreateFilter m) hk

/-- Witness for C8: key 2 inserted among three keys into a width-1024
filter with the concrete position hashes is found by Contains. -/
theorem C8_bloom_no_false_negatives_witness :
    (2 : Int) ∈ [(1 : Int), 2, 3] ∧
      bloomContains posHash1 posHash2
        (bloomInsertAll posHash1 posHash2 (CreateFilter 1024) [1, 2, 3]) 2 = true :=
  ⟨by decide, C8_bloom_no_false_negatives posHash1 posHash2 1024 [1, 2, 3] 2 (by decide)⟩

/-! ## Recovery theorems -/

/-- C10: Rollback on a transaction id with no entry in the in-memory
transaction stack returns success immediately: no log record is
written, the database is untouched and the transaction manager is not
asked to commit — the returned state is exactly the input state. -/
theorem C10_rollback_without_stack_is_noop (s : RMState) (id : Nat)
    (h : alookup s.txStack id = none) :
    Rollback s id = Except.ok s := by
  unfold Rollback
  rw [h]

/-- Witness for C10: a state with one table and an empty transaction
stack; rolling back transaction 1 returns the state unchanged. -/
theorem C10_rollback_without_stack_is_noop_witness :
    alookup (c9state).txStack 1 = none ∧ Rollback c9state 1 = Except.ok c9state :=
  ⟨rfl, C10_rollback_without_stack_is_noop c9state 1 rfl⟩

/-- C5: with a WAL holding committed transaction 1 (START, INSERT(5,50),
COMMIT) followed by transaction 2 (START, UPDATE(5,99)) without a
commit, Recover on a fresh database succeeds and leaves key 5 at value
50: the committed insert is redone and the uncommitted update undone
to its logged old value. -/
theorem C5_redo_undo_round_trip :
    (Recover c5log c5init).toOption.map (fun s => dbFind s.db "t" 5) =
      some (some 50) := by
  decide

/-- C9: the trailing transaction-stack append in Commit is not dead
code, contradicting both the claim and the comment in Commit itself
that a committed transaction's stack data is deleted.  After
Commit(7), the stack entry for 7 is [COMMIT], so Rollback(7) fails
with the malformed-transaction error, while under the variant of
Commit without the trailing append the entry stays deleted and
Rollback(7) succeeds without any effect. -/
theorem C9_commit_trailing_append_is_observable :
    Rollback (rmCommit c9state 7) 7 = Except.error "incorrect format" ∧
      RollbackElided (rmCommitElided c9state 7) 7 =
        Except.ok (rmCommitElided c9state 7) := by
  constructor
  · rfl
  · rfl

/-- The LIFO loop of Rollback equals the monadic fold of Undo over the
edit records of the reversed stack. -/
theorem rollbackLoop_eq_foldlM (l : List LogRec) (s : RMState) :
    rollbackLoop s l = (l.filter (fun r => isEdit r)).foldlM Undo s := by
  induction l generalizing s with
  | nil => rfl
  | cons r rs ih =>
      by_cases h : isEdit r
      · rw [rollbackLoop, if_pos h, List.filter_cons_of_pos h, List.foldlM_cons]
        cases hu : Undo s r with
        | error e => rfl
        | ok s1 => exact ih s1
      · rw [rollbackLoop, if_neg h, List.filter_cons_of_neg h, ih s]

/-- C7: Rollback consults the in-memory stack of the transaction and,
when its first record is a start, undoes the stacked edit records in
LIFO order through Undo — the same handler Recover uses, which maps
INSERT to DELETE, UPDATE to an update back to the old value and DELETE
to an INSERT of the old value — and finishes by writing a commit
record (rmCommit appends COMMIT to the log) and committing in the
transaction manager; when the first record is not a start it fails
with the malformed-transaction error. -/
theorem C7_rollback_characterization (s : RMState) (id : Nat) (r0 : LogRec)
    (rest : List LogRec) (h : alookup s.txStack id = some (r0 :: rest)) :
    (isStart r0 = false → Rollback s id = Except.error "incorrect format") ∧
      (isStart r0 = true →
        Rollback s id =
          ((r0 :: rest).reverse.filter (fun r => isEdit r)).foldlM Undo s >>=
            fun s1 => Except.ok (tmCommit (rmCommit s1 id) id)) := by
  constructor
  · intro h0
    unfold Rollback
    rw [h]
    simp [h0]
  · intro h0
    unfold Rollback
    rw [h]
    simp only [h0, Bool.not_true, Bool.false_eq_true, if_false]
    rw [rollbackLoop_eq_foldlM]
    cases hfold : ((r0 :: rest).reverse.filter (fun r => isEdit r)).foldlM Undo s with
    | error e => rfl
    | ok s1 => rfl

/-- Witness for C7: the scenario-S6 state, transaction 3 with stack
START, INSERT(1,1), INSERT(2,2), UPDATE(1,9); Rollback equals the LIFO
fold of Undo over the edits followed by the commit. -/
theorem C7_rollback_characterization_witness :
    alookup c7state.txStack 3 =
      some [LogRec.start 3, LogRec.edit 3 "t" RAction.ins 1 0 1,
        LogRec.edit 3 "t" RAction.ins 2 0 2, LogRec.edit 3 "t" RAction.upd 1 1 9] ∧
      Rollback c7state 3 =
        (([LogRec.start 3, LogRec.edit 3 "t" RAction.ins 1 0 1,
            LogRec.edit 3 "t" RAction.ins 2 0 2,
            LogRec.edit 3 "t" RAction.upd 1 1 9].reverse.filter
              (fun r => isEdit r)).foldlM Undo c7state >>=
          fun s1 => Except.ok (tmCommit (rmCommit s1 3) 3)) :=
  ⟨rfl,
    (C7_rollback_characterization c7state 3 (LogRec.start 3)
      [LogRec.edit 3 "t" RAction.ins 1 0 1, LogRec.edit 3 "t" RAction.ins 2 0 2,
        LogRec.edit 3 "t" RAction.upd 1 1 9] rfl).2 rfl⟩

/-! ## Hash index counterexamples -/

/-- Counterexample to C1 as stated: with BUCKETSIZE 3, after
Insert(5,1) and then a successful Insert(5,2) with no intervening
Update or Delete, Find(5) returns 1 — the value from the earlier
insert — and not 2, because buckets append duplicate keys and the
bucket scan returns the first match. -/
theorem C1_counterexample :
    (applyTOps natHash 3 10 [TOp.ins 5 1, TOp.ins 5 2] newHashTable).map
        (fun t => Find natHash t 5) = some (some 1) ∧
      ¬ (applyTOps natHash 3 10 [TOp.ins 5 1, TOp.ins 5 2] newHashTable).map
          (fun t => Find natHash t 5) = some (some 2) := by
  constructor
  · decide
  · decide

/-! ## Pager theorems -/

/-- Counterexample to C4 as stated: with capacity 3, calling GetPage(0)
twice without an intervening Put leaves one page in the pinned list
with pin count 2, so the sum of pin counts (2) differs from the length
of the pinned list (1); the three residency lists still sum to the
capacity. -/
theorem C4_counterexample :
    (applyPOps [POp.get 0, POp.get 0] (newPager 3 false 0)).map
        (fun s => (pinSum s.pinned, (s.pinned.length : Int),
          s.free.length + s.unpinned.length + s.pinned.length)) =
      some (2, 1, 3) ∧ ¬ (2 : Int) = 1 := by
  constructor
  · decide
  · decide

/-- Directory slots of an extended table wrap around modulo the old
directory size. -/
theorem extend_dirSlot (t : HashTable) (hlen : t.buckets.length = 2 ^ t.depth)
    (i : Nat) (hi : i < 2 * 2 ^ t.depth) :
    dirSlot (ExtendTable t) i = dirSlot t (i % 2 ^ t.depth) := by
  unfold ExtendTable dirSlot
  simp only
  by_cases hlt : i < t.buckets.length
  · rw [getD_append_lt _ _ _ _ hlt, Nat.mod_eq_of_lt (hlen ▸ hlt)]
  · push_neg at hlt
    rw [getD_append_ge _ _ _ _ hlt]
    have hge : 2 ^ t.depth ≤ i := hlen ▸ hlt
    have hsub : i - 2 ^ t.depth < 2 ^ t.depth := by omega
    rw [Nat.mod_eq_sub_mod hge, Nat.mod_eq_of_lt hsub, hlen]

/-- Counterexample to C3 as stated: splitting the full slot-0 bucket of
c3table (local depth d = 2, hash argument 0, so oldHash = 0 and the new
bucket goes on page 4) redirects slot 4 but leaves slot 0 — which is
also congruent to oldHash + 2^d modulo 2^d, since 4 mod 4 = 0 mod 4 —
pointing at the old page 0: the code redirects modulo 2^(d+1), not
modulo 2^d. -/
theorem C3_counterexample :
    (Split natHash 3 10 c3table 0 0).map (fun t => dirSlot t 0) = some 0 ∧
      (Split natHash 3 10 c3table 0 0).map (fun t => dirSlot t 4) = some 4 ∧
      0 % 2 ^ 2 = (0 + 2 ^ 2) % 2 ^ 2 ∧ ¬ (0 : Nat) = 4 := by
  refine ⟨by decide, by decide, by decide, by decide⟩

/-- C3 amended: for a Split call that triggers no recursive split, with
d the bucket's local depth and oldHash = hash mod 2^d, exactly the
entries whose hash at depth d+1 equals oldHash + 2^d move to the new
bucket (the rest stay, in order), and exactly the directory slots
congruent to oldHash + 2^d modulo 2^(d+1) are redirected to the new
bucket; every other slot keeps the pointer it had in the (possibly
doubled) directory. -/
theorem C3_split_partition_and_redirect (H : Int → Nat) (B fuel : Nat)
    (t : HashTable) (pn hsh : Nat)
    (hpn : pn < t.pages.length)
    (hlen : t.buckets.length = 2 ^ t.depth)
    (hd : localDepth t pn ≤ t.depth)
    (hvalid : ∀ i < t.buckets.length, dirSlot t i < t.pages.length)
    (hstay : (splitStayed H t pn hsh).length < B)
    (hmove : (splitMoved H t pn hsh).length < B) :
    ∃ t', Split H B (fuel + 1) t pn hsh = some t' ∧
      (getPageB t' t.pages.length).entries = splitMoved H t pn hsh ∧
      (getPageB t' pn).entries = splitStayed H t pn hsh ∧
      (∀ i < t'.buckets.length,
        (dirSlot t' i = t.pages.length ↔
          i % 2 ^ (localDepth t pn + 1) = splitNewHash t pn hsh)) ∧
      (∀ i < t'.buckets.length,
        ¬ i % 2 ^ (localDepth t pn + 1) = splitNewHash t pn hsh →
          dirSlot t' i = dirSlot t (i % 2 ^ t.depth)) := by
  have hpow : 0 < 2 ^ t.depth := Nat.pos_pow_of_pos _ (by omega)
  have hstay2 : ¬ B ≤ ((getPageB t pn).entries.filter
      (fun e => ¬ Hasher H e.key ((getPageB t pn).depth + 1) =
        hsh % 2 ^ (getPageB t pn).depth + 2 ^ (getPageB t pn).depth)).length :=
    Nat.not_le.mpr hstay
  have hmove2 : ¬ B ≤ ((getPageB t pn).entries.filter
      (fun e => Hasher H e.key ((getPageB t pn).depth + 1) =
        hsh % 2 ^ (getPageB t pn).depth + 2 ^ (getPageB t pn).depth)).length :=
    Nat.not_le.mpr hmove
  set tE := if (getPageB t pn).depth = t.depth then ExtendTable t else t with htE
  have hEpages : tE.pages = t.pages := by
    rw [htE]
    by_cases hcase : (getPageB t pn).depth = t.depth
    · rw [if_pos hcase]
      rfl
    · rw [if_neg hcase]
  have hEslot : ∀ i, i < tE.buckets.length →
      dirSlot tE i = dirSlot t (i % 2 ^ t.depth) := by
    intro i hi
    rw [htE] at hi ⊢
    by_cases hcase : (getPageB t pn).depth = t.depth
    · rw [if_pos hcase] at hi ⊢
      refine extend_dirSlot t hlen i ?_
      have : (ExtendTable t).buckets.length = t.buckets.length + t.buckets.length := by
        unfold ExtendTable
        simp
      omega
    · rw [if_neg hcase] at hi ⊢
      rw [Nat.mod_eq_of_lt (hlen ▸ hi)]
  have hsplit :
      Split H B (fuel + 1) t pn hsh =
        some { depth := tE.depth
               buckets := redirectFrom tE.pages.length (2 ^ ((getPageB t pn).depth + 1))
                 (hsh % 2 ^ (getPageB t pn).depth + 2 ^ (getPageB t pn).depth) 0 tE.buckets
               pages := (tE.pages.set pn
                   ⟨(getPageB t pn).depth + 1,
                     (getPageB t pn).entries.filter
                       (fun e => ¬ Hasher H e.key ((getPageB t pn).depth + 1) =
                         hsh % 2 ^ (getPageB t pn).depth + 2 ^ (getPageB t pn).depth)⟩)
                 ++ [⟨(getPageB t pn).depth + 1,
                     (getPageB t pn).entries.filter
                       (fun e => Hasher H e.key ((getPageB t pn).depth + 1) =
                         hsh % 2 ^ (getPageB t pn).depth + 2 ^ (getPageB t pn).depth)⟩] } := by
    rw [Split]
    simp only
    rw [if_neg hstay2, if_neg hmove2]
  refine ⟨_, hsplit, ?_, ?_, ?_, ?_⟩
  · -- new bucket holds exactly the moved entries
    unfold getPageB
    simp only
    rw [getD_append_ge]
    · rw [List.length_set, hEpages, Nat.sub_self]
      rfl
    · rw [List.length_set, hEpages]
  · -- old bucket keeps exactly the stayed entries
    unfold getPageB
    simp only
    rw [getD_append_lt]
    · rw [getD_set_self]
      · rfl
      · rw [hEpages]
        exact hpn
    · rw [List.length_set, hEpages]
      exact hpn
  · -- slots pointing at the new bucket are exactly the congruent ones
    intro i hi
    simp only [redirectFrom_length] at hi
    have hmlt : i % 2 ^ t.depth < t.buckets.length := by
      rw [hlen]
      exact Nat.mod_lt _ hpow
    show (redirectFrom tE.pages.length _ _ 0 tE.buckets).getD i 0 = t.pages.length ↔ _
    rw [redirectFrom_getD _ _ _ _ _ _ _ hi, Nat.zero_add]
    by_cases hcond : i % 2 ^ ((getPageB t pn).depth + 1) =
        hsh % 2 ^ (getPageB t pn).depth + 2 ^ (getPageB t pn).depth
    · rw [if_pos hcond, hEpages]
      exact ⟨fun _ => hcond, fun _ => rfl⟩
    · rw [if_neg hcond]
      constructor
      · intro heq
        exfalso
        have hes := hEslot i hi
        unfold dirSlot at hes
        rw [hes] at heq
        have hlt2 : dirSlot t (i % 2 ^ t.depth) < t.pages.length := hvalid _ hmlt
        unfold dirSlot at hlt2
        omega
      · intro hc
        exact absurd hc hcond
  · -- slots not redirected keep the doubled-directory pointer
    intro i hi hcond
    simp only [redirectFrom_length] at hi
    have hcond2 : ¬ i % 2 ^ ((getPageB t pn).depth + 1) =
        hsh % 2 ^ (getPageB t pn).depth + 2 ^ (getPageB t pn).depth := hcond
    show (redirectFrom tE.pages.length _ _ 0 tE.buckets).getD i 0 = _
    rw [redirectFrom_getD _ _ _ _ _ _ _ hi, Nat.zero_add, if_neg hcond2]
    have hes := hEslot i hi
    unfold dirSlot at hes
    exact hes

/-- Witness for the amended C3: the concrete split of c3table at page 0
satisfies every hypothesis and the partition/redirect conclusion. -/
theorem C3_split_partition_and_redirect_witness :
    (0 < c3table.pages.length ∧ c3table.buckets.length = 2 ^ c3table.depth ∧
      localDepth c3table 0 ≤ c3table.depth ∧
      (∀ i < c3table.buckets.length, dirSlot c3table i < c3table.pages.length) ∧
      (splitStayed natHash c3table 0 0).length < 3 ∧
      (splitMoved natHash c3table 0 0).length < 3) ∧
    (∃ t', Split natHash 3 (9 + 1) c3table 0 0 = some t' ∧
      (getPageB t' c3table.pages.length).entries = splitMoved natHash c3table 0 0 ∧
      (getPageB t' 0).entries = splitStayed natHash c3table 0 0 ∧
      (∀ i < t'.buckets.length,
        (dirSlot t' i = c3table.pages.length ↔
          i % 2 ^ (localDepth c3table 0 + 1) = splitNewHash c3table 0 0)) ∧
      (∀ i < t'.buckets.length,
        ¬ i % 2 ^ (localDepth c3table 0 + 1) = splitNewHash c3table 0 0 →
          dirSlot t' i = dirSlot c3table (i % 2 ^ c3table.depth))) :=
  ⟨⟨by decide, by decide, by decide, by decide, by decide, by decide⟩,
    C3_split_partition_and_redirect natHash 3 9 c3table 0 0 (by decide) (by decide)
      (by decide) (by decide) (by decide) (by decide)⟩

/-! ## Pager invariant -/

theorem findPage_mem (l : List PPage) (n : Int) (p : PPage)
    (h : findPage l n = some p) : p ∈ l ∧ p.pagenum = n := by
  induction l with
  | nil => simp [findPage] at h
  | cons a as ih =>
      by_cases ha : a.pagenum = n
      · unfold findPage at h
        rw [List.find?_cons_of_pos] at h
        · obtain rfl : a = p := by injection h
          exact ⟨List.mem_cons_self a as, ha⟩
        · simp [ha]
      · unfold findPage at h ih
        rw [List.find?_cons_of_neg] at h
        · obtain ⟨h1, h2⟩ := ih h
          exact ⟨List.mem_cons_of_mem a h1, h2⟩
        · simp [ha]

theorem removePage_length (l : List PPage) (n : Int) (p : PPage)
    (h : findPage l n = some p) : (removePage l n).length + 1 = l.length := by
  induction l with
  | nil => simp [findPage] at h
  | cons a as ih =>
      by_cases ha : a.pagenum = n
      · simp [removePage, ha]
      · unfold findPage at h ih
        rw [List.find?_cons_of_neg] at h
        · simp [removePage, ha, ih h]
        · simp [ha]

theorem removePage_mem (l : List PPage) (n : Int) (x : PPage)
    (h : x ∈ removePage l n) : x ∈ l := by
  induction l with
  | nil => simp [removePage] at h
  | cons a as ih =>
      unfold removePage at h
      by_cases ha : a.pagenum = n
      · rw [if_pos ha] at h
        exact List.mem_cons_of_mem a h
      · rw [if_neg ha] at h
        rcases List.mem_cons.mp h with h1 | h1
        · exact h1 ▸ List.mem_cons_self a as
        · exact List.mem_cons_of_mem a (ih h1)

theorem replacePage_length (l : List PPage) (n : Int) (q : PPage) :
    (replacePage l n q).length = l.length := by
  induction l with
  | nil => rfl
  | cons a as ih =>
      unfold replacePage
      by_cases ha : a.pagenum = n
      · rw [if_pos ha]
        simp
      · rw [if_neg ha]
        simp [ih]

theorem replacePage_mem (l : List PPage) (n : Int) (q x : PPage)
    (h : x ∈ replacePage l n q) : x = q ∨ x ∈ l := by
  induction l with
  | nil => simp [replacePage] at h
  | cons a as ih =>
      unfold replacePage at h
      by_cases ha : a.pagenum = n
      · rw [if_pos ha] at h
        rcases List.mem_cons.mp h with h1 | h1
        · exact Or.inl h1
        · exact Or.inr (List.mem_cons_of_mem a h1)
      · rw [if_neg ha] at h
        rcases List.mem_cons.mp h with h1 | h1
        · exact Or.inr (h1 ▸ List.mem_cons_self a as)
        · rcases ih h1 with h2 | h2
          · exact Or.inl h2
          · exact Or.inr (List.mem_cons_of_mem a h2)

theorem pinSum_ge_length (l : List PPage) (h : ∀ p ∈ l, 1 ≤ p.pinCount) :
    (l.length : Int) ≤ pinSum l := by
  induction l with
  | nil => simp [pinSum]
  | cons a as ih =>
      have ha := h a (List.mem_cons_self a as)
      have has := ih (fun p hp => h p (List.mem_cons_of_mem a hp))
      unfold pinSum at has ⊢
      simp only [List.map_cons, List.sum_cons, List.length_cons]
      push_cast
      omega

theorem pagerInv_get (N : Nat) (s s1 : PagerState) (n : Int)
    (hinv : pagerInv N s) (h : GetPage s n = some s1) : pagerInv N s1 := by
  obtain ⟨hlen, hpin, hunp⟩ := hinv
  unfold GetPage at h
  by_cases hn : n < 0
  · rw [if_pos hn] at h
    cases h
  · rw [if_neg hn] at h
    cases hu : findPage s.unpinned n with
    | some p =>
        rw [hu] at h
        simp only [Option.some.injEq] at h
        subst h
        obtain ⟨hmem, _⟩ := findPage_mem _ _ _ hu
        refine ⟨?_, ?_, ?_⟩
        · have := removePage_length _ _ _ hu
          simp only [List.length_append, List.length_cons, List.length_nil]
          omega
        · intro q hq
          rcases List.mem_append.mp hq with h1 | h1
          · exact hpin q h1
          · rcases List.mem_cons.mp h1 with h2 | h2
            · subst h2
              have := hunp p hmem
              simp [this]
            · simp at h2
        · intro q hq
          exact hunp q (removePage_mem _ _ _ hq)
    | none =>
        rw [hu] at h
        cases hp : findPage s.pinned n with
        | some p =>
            rw [hp] at h
            simp only [Option.some.injEq] at h
            subst h
            obtain ⟨hmem, _⟩ := findPage_mem _ _ _ hp
            refine ⟨?_, ?_, ?_⟩
            · simp only [replacePage_length]
              omega
            · intro q hq
              rcases replacePage_mem _ _ _ _ hq with h1 | h1
              · subst h1
                have := hpin p hmem
                simp only
                omega
              · exact hpin q h1
            · exact hunp
        | none =>
            rw [hp] at h
            unfold NewPage at h
            cases hf : s.free with
            | cons f fs =>
                rw [hf] at h
                simp only at h
                by_cases hmax : n < s.maxPageNum
                · rw [if_pos hmax] at h
                  simp only [Option.some.injEq] at h
                  subst h
                  refine ⟨?_, ?_, ?_⟩
                  · simp only [List.length_append, List.length_cons, List.length_nil]
                    rw [hf] at hlen
                    simp only [List.length_cons] at hlen
                    omega
                  · intro q hq
                    rcases List.mem_append.mp hq with h1 | h1
                    · exact hpin q h1
                    · rcases List.mem_cons.mp h1 with h2 | h2
                      · subst h2
                        simp
                      · simp at h2
                  · exact hunp
                · rw [if_neg hmax] at h
                  simp only [Option.some.injEq] at h
                  subst h
                  refine ⟨?_, ?_, ?_⟩
                  · simp only [List.length_append, List.length_cons, List.length_nil]
                    rw [hf] at hlen
                    simp only [List.length_cons] at hlen
                    omega
                  · intro q hq
                    rcases List.mem_append.mp hq with h1 | h1
                    · exact hpin q h1
                    · rcases List.mem_cons.mp h1 with h2 | h2
                      · subst h2
                        simp
                      · simp at h2
                  · exact hunp
            | nil =>
                rw [hf] at h
                simp only at h
                by_cases hfile : ¬ s.hasFile
                · rw [if_pos hfile] at h
                  cases h
                · rw [if_neg hfile] at h
                  cases hup : s.unpinned with
                  | nil =>
                      rw [hup] at h
                      cases h
                  | cons u us =>
                      rw [hup] at h
                      simp only at h
                      by_cases hmax : n < s.maxPageNum
                      · rw [if_pos hmax] at h
                        simp only [Option.some.injEq] at h
                        subst h
                        refine ⟨?_, ?_, ?_⟩
                        · simp only [hf, hup, List.length_append, List.length_cons,
                            List.length_nil] at hlen ⊢
                          omega
                        · intro q hq
                          rcases List.mem_append.mp hq with h1 | h1
                          · exact hpin q h1
                          · rcases List.mem_cons.mp h1 with h2 | h2
                            · subst h2
                              simp
                            · simp at h2
                        · intro q hq
                          exact hunp q (hup ▸ List.mem_cons_of_mem u hq)
                      · rw [if_neg hmax] at h
                        simp only [Option.some.injEq] at h
                        subst h
                        refine ⟨?_, ?_, ?_⟩
                        · simp only [hf, hup, List.length_append, List.length_cons,
                            List.length_nil] at hlen ⊢
                          omega
                        · intro q hq
                          rcases List.mem_append.mp hq with h1 | h1
                          · exact hpin q h1
                          · rcases List.mem_cons.mp h1 with h2 | h2
                            · subst h2
                              simp
                            · simp at h2
                        · intro q hq
                          exact hunp q (hup ▸ List.mem_cons_of_mem u hq)

theorem pagerInv_put (N : Nat) (s s1 : PagerState) (n : Int)
    (hinv : pagerInv N s) (hheld : ∃ p, findPage s.pinned n = some p)
    (h : PutPage s n = some s1) : pagerInv N s1 := by
  obtain ⟨hlen, hpin, hunp⟩ := hinv
  obtain ⟨p, hp⟩ := hheld
  unfold PutPage at h
  rw [hp] at h
  obtain ⟨hmem, _⟩ := findPage_mem _ _ _ hp
  simp only at h
  by_cases hz : p.pinCount - 1 = 0
  · rw [if_pos hz] at h
    simp only [Option.some.injEq] at h
    subst h
    refine ⟨?_, ?_, ?_⟩
    · have := removePage_length _ _ _ hp
      simp only [List.length_append, List.length_cons, List.length_nil]
      omega
    · intro q hq
      exact hpin q (removePage_mem _ _ _ hq)
    · intro q hq
      rcases List.mem_append.mp hq with h1 | h1
      · exact hunp q h1
      · rcases List.mem_cons.mp h1 with h2 | h2
        · subst h2
          simpa using hz
        · simp at h2
  · rw [if_neg hz] at h
    simp only [Option.some.injEq] at h
    subst h
    refine ⟨?_, ?_, ?_⟩
    · simp only [replacePage_length]
      omega
    · intro q hq
      rcases replacePage_mem _ _ _ _ hq with h1 | h1
      · subst h1
        have := hpin p hmem
        simp only
        omega
      · exact hpin q h1
    · exact hunp

theorem reachP_pagerInv (N : Nat) (hf : Bool) (m : Int) (s : PagerState)
    (h : ReachP N hf m s) : pagerInv N s := by
  induction h with
  | init =>
      refine ⟨?_, ?_, ?_⟩
      · simp [newPager]
      · intro p hp
        simp [newPager] at hp
      · intro p hp
        simp [newPager] at hp
  | get hr hstep ih => exact pagerInv_get N _ _ _ ih hstep
  | put hr hheld hstep ih => exact pagerInv_put N _ _ _ ih hheld hstep

/-- C4 amended: after every admissible sequence of GetPage/Put calls
(each Put through a still-held pin), the three residency lists always
partition the fixed NUMPAGES frames, and the sum of the pin counts of
the pinned pages is at least — not equal to, as re-pinning an already
pinned page raises its count without lengthening the list — the length
of the pinned list. -/
theorem C4_pager_residency_invariant (N : Nat) (hf : Bool) (m : Int) (s : PagerState)
    (h : ReachP N hf m s) :
    s.free.length + s.unpinned.length + s.pinned.length = N ∧
      (s.pinned.length : Int) ≤ pinSum s.pinned := by
  obtain ⟨hlen, hpin, _⟩ := reachP_pagerInv N hf m s h
  exact ⟨hlen, pinSum_ge_length _ hpin⟩

/-- Witness for the amended C4: the capacity-3 state reached by two
GetPage(0) calls satisfies the partition equality and the pin-sum
bound. -/
theorem C4_pager_residency_invariant_witness :
    ReachP 3 false 0 ⟨false, 1, [⟨NOPAGE, 0, false⟩, ⟨NOPAGE, 0, false⟩], [], [⟨0, 2, true⟩]⟩ ∧
      ((2 : Nat) + 0 + 1 = 3 ∧
        ((1 : Int) ≤ pinSum [⟨0, 2, true⟩])) := by
  have h1 : GetPage (newPager 3 false 0) 0 =
      some ⟨false, 1, [⟨NOPAGE, 0, false⟩, ⟨NOPAGE, 0, false⟩], [], [⟨0, 1, true⟩]⟩ := by
    decide
  have h2 : GetPage (⟨false, 1, [⟨NOPAGE, 0, false⟩, ⟨NOPAGE, 0, false⟩], [],
      [⟨0, 1, true⟩]⟩ : PagerState) 0 =
      some ⟨false, 1, [⟨NOPAGE, 0, false⟩, ⟨NOPAGE, 0, false⟩], [], [⟨0, 2, true⟩]⟩ := by
    decide
  have hr : ReachP 3 false 0
      ⟨false, 1, [⟨NOPAGE, 0, false⟩, ⟨NOPAGE, 0, false⟩], [], [⟨0, 2, true⟩]⟩ :=
    ReachP.get (ReachP.get ReachP.init h1) h2
  have := C4_pager_residency_invariant 3 false 0 _ hr
  exact ⟨hr, this⟩

/-! ## Split structure lemmas -/

theorem mod_pow_le (x d D : Nat) (h : d ≤ D) : x % 2 ^ D % 2 ^ d = x % 2 ^ d :=
  Nat.mod_mod_of_dvd x (pow_dvd_pow 2 h)

/-- A residue modulo 2^(d+1) is the residue modulo 2^d, possibly
shifted by 2^d. -/
theorem mod_pow_succ (x d : Nat) :
    x % 2 ^ (d + 1) = x % 2 ^ d ∨ x % 2 ^ (d + 1) = x % 2 ^ d + 2 ^ d := by
  have h1 : x % 2 ^ (d + 1) % 2 ^ d = x % 2 ^ d := mod_pow_le x d (d + 1) (by omega)
  have h2 : x % 2 ^ (d + 1) < 2 ^ (d + 1) :=
    Nat.mod_lt _ (Nat.pos_pow_of_pos _ (by omega))
  have h3 : 2 ^ (d + 1) = 2 ^ d + 2 ^ d := by
    rw [pow_succ]
    omega
  rcases Nat.lt_or_ge (x % 2 ^ (d + 1)) (2 ^ d) with hlt | hge
  · left
    rw [← h1, Nat.mod_eq_of_lt hlt]
  · right
    have h4 : x % 2 ^ (d + 1) - 2 ^ d < 2 ^ d := by omega
    have h5 : x % 2 ^ (d + 1) % 2 ^ d = (x % 2 ^ (d + 1) - 2 ^ d) % 2 ^ d :=
      Nat.mod_eq_sub_mod hge
    rw [Nat.mod_eq_of_lt h4] at h5
    omega

theorem splitTE_pages (t : HashTable) (pn : Nat) : (splitTE t pn).pages = t.pages := by
  unfold splitTE
  by_cases h : (getPageB t pn).depth = t.depth
  · rw [if_pos h]
    rfl
  · rw [if_neg h]

theorem splitTE_len (t : HashTable) (pn : Nat) (hlen : t.buckets.length = 2 ^ t.depth) :
    (splitTE t pn).buckets.length = 2 ^ (splitTE t pn).depth := by
  unfold splitTE
  by_cases h : (getPageB t pn).depth = t.depth
  · rw [if_pos h]
    unfold ExtendTable
    simp only [List.length_append, hlen]
    rw [pow_succ]
    omega
  · rw [if_neg h]
    exact hlen

theorem splitTE_depth_ge (t : HashTable) (pn : Nat) : t.depth ≤ (splitTE t pn).depth := by
  unfold splitTE
  by_cases h : (getPageB t pn).depth = t.depth
  · rw [if_pos h]
    exact Nat.le_succ _
  · rw [if_neg h]

theorem splitTE_d1_le (t : HashTable) (pn : Nat) (hle : localDepth t pn ≤ t.depth) :
    localDepth t pn + 1 ≤ (splitTE t pn).depth := by
  unfold splitTE localDepth at *
  by_cases h : (getPageB t pn).depth = t.depth
  · rw [if_pos h]
    show (getPageB t pn).depth + 1 ≤ t.depth + 1
    omega
  · rw [if_neg h]
    omega

theorem splitTE_dirSlot (t : HashTable) (pn : Nat)
    (hlen : t.buckets.length = 2 ^ t.depth) (i : Nat)
    (hi : i < (splitTE t pn).buckets.length) :
    dirSlot (splitTE t pn) i = dirSlot t (i % 2 ^ t.depth) := by
  unfold splitTE at hi ⊢
  by_cases h : (getPageB t pn).depth = t.depth
  · rw [if_pos h] at hi ⊢
    refine extend_dirSlot t hlen i ?_
    have : (ExtendTable t).buckets.length = t.buckets.length + t.buckets.length := by
      unfold ExtendTable
      simp
    omega
  · rw [if_neg h] at hi ⊢
    rw [Nat.mod_eq_of_lt (hlen ▸ hi)]

theorem splitStep_depth (H : Int → Nat) (t : HashTable) (pn hsh : Nat) :
    (splitStep H t pn hsh).depth = (splitTE t pn).depth := rfl

theorem splitStep_pages_length (H : Int → Nat) (t : HashTable) (pn hsh : Nat) :
    (splitStep H t pn hsh).pages.length = t.pages.length + 1 := by
  unfold splitStep
  simp only [List.length_append, List.length_set, List.length_cons, List.length_nil]
  rw [splitTE_pages]

theorem splitStep_buckets_length (H : Int → Nat) (t : HashTable) (pn hsh : Nat) :
    (splitStep H t pn hsh).buckets.length = (splitTE t pn).buckets.length := by
  unfold splitStep
  simp only [redirectFrom_length]

theorem splitStep_dirSlot (H : Int → Nat) (t : HashTable) (pn hsh : Nat)
    (hlen : t.buckets.length = 2 ^ t.depth) (i : Nat)
    (hi : i < (splitTE t pn).buckets.length) :
    dirSlot (splitStep H t pn hsh) i =
      if i % 2 ^ (localDepth t pn + 1) = splitNewHash t pn hsh then t.pages.length
      else dirSlot t (i % 2 ^ t.depth) := by
  unfold splitStep dirSlot
  simp only
  rw [redirectFrom_getD _ _ _ _ _ _ _ hi, Nat.zero_add, splitTE_pages]
  unfold localDepth splitNewHash
  by_cases hc : i % 2 ^ ((getPageB t pn).depth + 1) =
      hsh % 2 ^ (getPageB t pn).depth + 2 ^ (getPageB t pn).depth
  · rw [if_pos hc, if_pos ?_]
    exact hc
  · rw [if_neg hc, if_neg ?_]
    · have := splitTE_dirSlot t pn hlen i hi
      unfold dirSlot at this
      exact this
    · exact hc

theorem splitStep_page_pn (H : Int → Nat) (t : HashTable) (pn hsh : Nat)
    (hpn : pn < t.pages.length) :
    getPageB (splitStep H t pn hsh) pn =
      ⟨localDepth t pn + 1, splitStayed H t pn hsh⟩ := by
  unfold splitStep getPageB
  simp only
  rw [getD_append_lt]
  · rw [splitTE_pages, getD_set_self]
    · rfl
    · exact hpn
  · rw [List.length_set, splitTE_pages]
    exact hpn

theorem splitStep_page_new (H : Int → Nat) (t : HashTable) (pn hsh : Nat) :
    getPageB (splitStep H t pn hsh) t.pages.length =
      ⟨localDepth t pn + 1, splitMoved H t pn hsh⟩ := by
  unfold splitStep getPageB
  simp only
  rw [getD_append_ge]
  · rw [List.length_set, splitTE_pages, Nat.sub_self]
    rfl
  · rw [List.length_set, splitTE_pages]

theorem splitStep_page_other (H : Int → Nat) (t : HashTable) (pn hsh q : Nat)
    (hq1 : ¬ q = pn) (hq2 : ¬ q = t.pages.length) :
    getPageB (splitStep H t pn hsh) q = getPageB t q := by
  unfold splitStep getPageB
  simp only
  by_cases hlt : q < t.pages.length
  · rw [getD_append_lt]
    · rw [splitTE_pages, getD_set_other]
      intro hc
      exact hq1 hc.symm
    · rw [List.length_set, splitTE_pages]
      exact hlt
  · rw [getD_append_ge]
    · rw [List.length_set, splitTE_pages]
      have hgt : t.pages.length + 1 ≤ q := by omega
      rw [getD_out_of_range, getD_out_of_range]
      · omega
      · simp only [List.length_cons, List.length_nil]
        omega
    · rw [List.length_set, splitTE_pages]
      omega

/-- One-step unfolding of Split in terms of splitStep. -/
theorem Split_succ (H : Int → Nat) (B fuel : Nat) (t : HashTable) (pn hsh : Nat) :
    Split H B (fuel + 1) t pn hsh =
      if B ≤ (splitStayed H t pn hsh).length then
        Split H B fuel (splitStep H t pn hsh) pn (hsh % 2 ^ localDepth t pn)
      else if B ≤ (splitMoved H t pn hsh).length then
        Split H B fuel (splitStep H t pn hsh) t.pages.length (splitNewHash t pn hsh)
      else some (splitStep H t pn hsh) := by
  rw [Split]
  have hnp : (splitTE t pn).pages.length = t.pages.length := by
    rw [splitTE_pages]
  unfold splitStep splitTE splitStayed splitMoved splitNewHash localDepth at *
  simp only
  rw [hnp]

/-! ## Invariant preservation -/

theorem ExtendTable_pages (t : HashTable) : (ExtendTable t).pages = t.pages := rfl

theorem ExtendTable_len (t : HashTable) (hlen : t.buckets.length = 2 ^ t.depth) :
    (ExtendTable t).buckets.length = 2 ^ (ExtendTable t).depth := by
  unfold ExtendTable
  simp only [List.length_append, hlen]
  rw [pow_succ]
  omega

theorem ExtendTable_WF (H : Int → Nat) (t : HashTable) (hwf : TableWF H t) :
    TableWF H (ExtendTable t) := by
  have hlen := hwf.len
  have hnew : (ExtendTable t).buckets.length = 2 ^ (t.depth + 1) := by
    have := ExtendTable_len t hlen
    exact this
  have hmodlt : ∀ i : Nat, i % 2 ^ t.depth < t.buckets.length := by
    intro i
    rw [hlen]
    exact Nat.mod_lt _ (Nat.pos_pow_of_pos _ (by omega))
  have hslot : ∀ i, i < (ExtendTable t).buckets.length →
      dirSlot (ExtendTable t) i = dirSlot t (i % 2 ^ t.depth) := by
    intro i hi
    refine extend_dirSlot t hlen i ?_
    rw [hnew, pow_succ] at hi
    omega
  have hpage : ∀ q, getPageB (ExtendTable t) q = getPageB t q := fun _ => rfl
  refine ⟨hnew, ?_, ?_, ?_, ?_, ?_⟩
  · intro i hi
    rw [hslot i hi]
    exact hwf.ptr _ (hmodlt i)
  · intro i hi
    rw [hslot i hi, hpage]
    show (getPageB t (dirSlot t (i % 2 ^ t.depth))).depth ≤ t.depth + 1
    exact Nat.le_succ_of_le (hwf.ldep _ (hmodlt i))
  · intro i hi e he
    rw [hslot i hi, hpage] at he ⊢
    have hk := hwf.keys _ (hmodlt i) e he
    have hdq := hwf.ldep _ (hmodlt i)
    rw [hk]
    exact mod_pow_le i _ t.depth hdq
  · intro i hi j hj
    rw [hslot i hi, hslot j hj, hpage]
    have hc := hwf.cls _ (hmodlt i) _ (hmodlt j)
    have hdq := hwf.ldep _ (hmodlt i)
    rw [hc, mod_pow_le i _ t.depth hdq, mod_pow_le j _ t.depth hdq]
  · intro pn hpn
    obtain ⟨i, hi, hslot0⟩ := hwf.ptd pn hpn
    refine ⟨i, ?_, ?_⟩
    · rw [hnew, pow_succ]
      rw [hlen] at hi
      omega
    · rw [hslot i ?_, Nat.mod_eq_of_lt (hlen ▸ hi)]
      · exact hslot0
      · rw [hnew, pow_succ]
        rw [hlen] at hi
        omega

/-- Characterization of the directory class of the bucket being split:
under the invariant, a slot points at page pn exactly when it is
congruent to the split hash at the bucket's local depth. -/
theorem split_class_char (H : Int → Nat) (t : HashTable) (pn hsh : Nat)
    (hwf : TableWF H t)
    (hcls : ∃ j, j < t.buckets.length ∧ dirSlot t j = pn ∧
      j % 2 ^ localDepth t pn = hsh % 2 ^ localDepth t pn) :
    ∀ i < t.buckets.length,
      (dirSlot t i = pn ↔ i % 2 ^ localDepth t pn = hsh % 2 ^ localDepth t pn) := by
  obtain ⟨j, hj, hjp, hjm⟩ := hcls
  unfold localDepth at hjm ⊢
  intro i hi
  have hc := hwf.cls j hj i hi
  rw [hjp] at hc
  constructor
  · intro h
    have h2 := hc.mp (by rw [h])
    omega
  · intro h
    have h3 : j % 2 ^ (getPageB t pn).depth = i % 2 ^ (getPageB t pn).depth := by omega
    exact (hc.mpr h3).symm

theorem split_ldep (H : Int → Nat) (t : HashTable) (pn hsh : Nat)
    (hwf : TableWF H t)
    (hcls : ∃ j, j < t.buckets.length ∧ dirSlot t j = pn ∧
      j % 2 ^ localDepth t pn = hsh % 2 ^ localDepth t pn) :
    localDepth t pn ≤ t.depth := by
  obtain ⟨j, hj, hjp, _⟩ := hcls
  have := hwf.ldep j hj
  rw [hjp] at this
  exact this

theorem split_keys_pn (H : Int → Nat) (t : HashTable) (pn hsh : Nat)
    (hwf : TableWF H t)
    (hcls : ∃ j, j < t.buckets.length ∧ dirSlot t j = pn ∧
      j % 2 ^ localDepth t pn = hsh % 2 ^ localDepth t pn) :
    ∀ e ∈ (getPageB t pn).entries,
      H e.key % 2 ^ localDepth t pn = hsh % 2 ^ localDepth t pn := by
  obtain ⟨j, hj, hjp, hjm⟩ := hcls
  intro e he
  have hk := hwf.keys j hj e (by rw [hjp]; exact he)
  rw [hjp] at hk
  unfold localDepth at *
  omega

/-- One split round preserves the table invariant. -/
theorem splitStep_WF (H : Int → Nat) (t : HashTable) (pn hsh : Nat)
    (hwf : TableWF H t) (hpn : pn < t.pages.length)
    (hcls : ∃ j, j < t.buckets.length ∧ dirSlot t j = pn ∧
      j % 2 ^ localDepth t pn = hsh % 2 ^ localDepth t pn) :
    TableWF H (splitStep H t pn hsh) := by
  have hlen := hwf.len
  have hchar := split_class_char H t pn hsh hwf hcls
  have hdle := split_ldep H t pn hsh hwf hcls
  have hkpn := split_keys_pn H t pn hsh hwf hcls
  have hD1 : localDepth t pn + 1 ≤ (splitTE t pn).depth := splitTE_d1_le t pn hdle
  have hDE : t.depth ≤ (splitTE t pn).depth := splitTE_depth_ge t pn
  have hlenE : (splitTE t pn).buckets.length = 2 ^ (splitTE t pn).depth :=
    splitTE_len t pn hlen
  have hlen3 : (splitStep H t pn hsh).buckets.length = 2 ^ (splitTE t pn).depth := by
    rw [splitStep_buckets_length, hlenE]
  have hdep3 : (splitStep H t pn hsh).depth = (splitTE t pn).depth :=
    splitStep_depth H t pn hsh
  have hpl3 : (splitStep H t pn hsh).pages.length = t.pages.length + 1 :=
    splitStep_pages_length H t pn hsh
  have hpow : ∀ m : Nat, 0 < 2 ^ m := fun m => Nat.pos_pow_of_pos m (by omega)
  have hmD : ∀ i : Nat, i % 2 ^ t.depth < t.buckets.length := by
    intro i
    rw [hlen]
    exact Nat.mod_lt _ (hpow _)
  have hslot3 : ∀ i < (splitTE t pn).buckets.length,
      dirSlot (splitStep H t pn hsh) i =
        if i % 2 ^ (localDepth t pn + 1) = splitNewHash t pn hsh then t.pages.length
        else dirSlot t (i % 2 ^ t.depth) :=
    fun i hi => splitStep_dirSlot H t pn hsh hlen i hi
  have hpgpn : getPageB (splitStep H t pn hsh) pn =
      ⟨localDepth t pn + 1, splitStayed H t pn hsh⟩ := splitStep_page_pn H t pn hsh hpn
  have hpgnew : getPageB (splitStep H t pn hsh) t.pages.length =
      ⟨localDepth t pn + 1, splitMoved H t pn hsh⟩ := splitStep_page_new H t pn hsh
  have hpgoth : ∀ q, ¬ q = pn → ¬ q = t.pages.length →
      getPageB (splitStep H t pn hsh) q = getPageB t q :=
    fun q h1 h2 => splitStep_page_other H t pn hsh q h1 h2
  have hmemstay : ∀ e, e ∈ splitStayed H t pn hsh ↔
      e ∈ (getPageB t pn).entries ∧
        ¬ H e.key % 2 ^ (localDepth t pn + 1) = splitNewHash t pn hsh := by
    intro e
    unfold splitStayed Hasher
    rw [List.mem_filter]
    simp
  have hmemmove : ∀ e, e ∈ splitMoved H t pn hsh ↔
      e ∈ (getPageB t pn).entries ∧
        H e.key % 2 ^ (localDepth t pn + 1) = splitNewHash t pn hsh := by
    intro e
    unfold splitMoved Hasher
    rw [List.mem_filter]
    simp
  have holdlt : hsh % 2 ^ localDepth t pn < 2 ^ localDepth t pn := Nat.mod_lt _ (hpow _)
  have hnewlt : splitNewHash t pn hsh < 2 ^ (localDepth t pn + 1) := by
    unfold splitNewHash
    rw [pow_succ]
    omega
  have hnewmod : splitNewHash t pn hsh % 2 ^ localDepth t pn = hsh % 2 ^ localDepth t pn := by
    unfold splitNewHash
    rw [Nat.add_mod_right, Nat.mod_eq_of_lt holdlt]
  have hmodD : ∀ i : Nat, i % 2 ^ t.depth % 2 ^ localDepth t pn = i % 2 ^ localDepth t pn :=
    fun i => mod_pow_le i _ _ hdle
  -- residue analysis for slots that are, or are not, redirected
  have hredres : ∀ i : Nat, i % 2 ^ (localDepth t pn + 1) = splitNewHash t pn hsh →
      i % 2 ^ localDepth t pn = hsh % 2 ^ localDepth t pn := by
    intro i hi
    have := mod_pow_le i (localDepth t pn) (localDepth t pn + 1) (by omega)
    rw [hi] at this
    rw [← this, hnewmod]
  have hunres : ∀ i : Nat, ¬ i % 2 ^ (localDepth t pn + 1) = splitNewHash t pn hsh →
      i % 2 ^ localDepth t pn = hsh % 2 ^ localDepth t pn →
      i % 2 ^ (localDepth t pn + 1) = hsh % 2 ^ localDepth t pn := by
    intro i h1 h2
    rcases mod_pow_succ i (localDepth t pn) with h3 | h3
    · rw [h3, h2]
    · exfalso
      apply h1
      rw [h3, h2]
      rfl
  refine ⟨?_, ?_, ?_, ?_, ?_, ?_⟩
  · -- directory length
    rw [hlen3, hdep3]
  · -- slots point to allocated pages
    intro i hi
    rw [hlen3, ← hlenE] at hi
    rw [hslot3 i hi]
    by_cases hp : i % 2 ^ (localDepth t pn + 1) = splitNewHash t pn hsh
    · rw [if_pos hp, hpl3]
      omega
    · rw [if_neg hp, hpl3]
      have := hwf.ptr _ (hmD i)
      omega
  · -- local depths bounded by the global depth
    intro i hi
    rw [hlen3, ← hlenE] at hi
    rw [hslot3 i hi, hdep3]
    by_cases hp : i % 2 ^ (localDepth t pn + 1) = splitNewHash t pn hsh
    · rw [if_pos hp, hpgnew]
      exact hD1
    · rw [if_neg hp]
      by_cases hqp : dirSlot t (i % 2 ^ t.depth) = pn
      · rw [hqp, hpgpn]
        exact hD1
      · have hqn : ¬ dirSlot t (i % 2 ^ t.depth) = t.pages.length := by
          have := hwf.ptr _ (hmD i)
          omega
        rw [hpgoth _ hqp hqn]
        exact Nat.le_trans (hwf.ldep _ (hmD i)) hDE
  · -- keys match their slot at the bucket's local depth
    intro i hi e he
    rw [hlen3, ← hlenE] at hi
    rw [hslot3 i hi] at he ⊢
    by_cases hp : i % 2 ^ (localDepth t pn + 1) = splitNewHash t pn hsh
    · rw [if_pos hp, hpgnew] at he ⊢
      obtain ⟨_, hk⟩ := (hmemmove e).mp he
      show H e.key % 2 ^ (localDepth t pn + 1) = i % 2 ^ (localDepth t pn + 1)
      rw [hk, hp]
    · rw [if_neg hp] at he ⊢
      by_cases hqp : dirSlot t (i % 2 ^ t.depth) = pn
      · rw [hqp, hpgpn] at he ⊢
        obtain ⟨hmem, hk⟩ := (hmemstay e).mp he
        show H e.key % 2 ^ (localDepth t pn + 1) = i % 2 ^ (localDepth t pn + 1)
        have hek : H e.key % 2 ^ localDepth t pn = hsh % 2 ^ localDepth t pn := hkpn e hmem
        have he1 : H e.key % 2 ^ (localDepth t pn + 1) = hsh % 2 ^ localDepth t pn :=
          hunres _ hk hek
        have hi1 : i % 2 ^ localDepth t pn = hsh % 2 ^ localDepth t pn := by
          have := (hchar _ (hmD i)).mp hqp
          rw [hmodD i] at this
          exact this
        have hi2 : i % 2 ^ (localDepth t pn + 1) = hsh % 2 ^ localDepth t pn :=
          hunres _ hp hi1
        rw [he1, hi2]
      · have hqn : ¬ dirSlot t (i % 2 ^ t.depth) = t.pages.length := by
          have := hwf.ptr _ (hmD i)
          omega
        rw [hpgoth _ hqp hqn] at he ⊢
        have hk := hwf.keys _ (hmD i) e he
        have hdq := hwf.ldep _ (hmD i)
        rw [hk]
        exact mod_pow_le i _ _ hdq
  · -- congruence classes
    intro i hi j hj
    rw [hlen3, ← hlenE] at hi hj
    rw [hslot3 i hi, hslot3 j hj]
    by_cases hpi : i % 2 ^ (localDepth t pn + 1) = splitNewHash t pn hsh
    · rw [if_pos hpi]
      by_cases hpj : j % 2 ^ (localDepth t pn + 1) = splitNewHash t pn hsh
      · rw [if_pos hpj, hpgnew]
        constructor
        · intro _
          show i % 2 ^ (localDepth t pn + 1) = j % 2 ^ (localDepth t pn + 1)
          rw [hpi, hpj]
        · intro _
          rfl
      · rw [if_neg hpj, hpgnew]
        constructor
        · intro hcon
          exfalso
          have := hwf.ptr _ (hmD j)
          omega
        · intro hcon
          exfalso
          have : i % 2 ^ (localDepth t pn + 1) = j % 2 ^ (localDepth t pn + 1) := hcon
          rw [hpi] at this
          exact hpj this.symm
    · rw [if_neg hpi]
      by_cases hpj : j % 2 ^ (localDepth t pn + 1) = splitNewHash t pn hsh
      · rw [if_pos hpj]
        by_cases hqp : dirSlot t (i % 2 ^ t.depth) = pn
        · rw [hqp, hpgpn]
          constructor
          · intro hcon
            exfalso
            omega
          · intro hcon
            exfalso
            have hi1 : i % 2 ^ localDepth t pn = hsh % 2 ^ localDepth t pn := by
              have := (hchar _ (hmD i)).mp hqp
              rw [hmodD i] at this
              exact this
            have hi2 : i % 2 ^ (localDepth t pn + 1) = hsh % 2 ^ localDepth t pn :=
              hunres _ hpi hi1
            have : i % 2 ^ (localDepth t pn + 1) = j % 2 ^ (localDepth t pn + 1) := hcon
            rw [hi2, hpj] at this
            unfold splitNewHash at this
            omega
        · have hqn : ¬ dirSlot t (i % 2 ^ t.depth) = t.pages.length := by
            have := hwf.ptr _ (hmD i)
            omega
          rw [hpgoth _ hqp hqn]
          constructor
          · intro hcon
            exfalso
            have := hwf.ptr _ (hmD i)
            omega
          · intro hcon
            exfalso
            -- congruence at the old local depth would force slot i into pn's class
            have hdq := hwf.ldep _ (hmD i)
            have hjd : j % 2 ^ localDepth t pn = hsh % 2 ^ localDepth t pn := hredres j hpj
            have hcls2 := hwf.cls _ (hmD i) _ (hmD j)
            have hmodq : ∀ x : Nat,
                x % 2 ^ t.depth % 2 ^ (getPageB t (dirSlot t (i % 2 ^ t.depth))).depth =
                  x % 2 ^ (getPageB t (dirSlot t (i % 2 ^ t.depth))).depth :=
              fun x => mod_pow_le x _ _ hdq
            rw [hmodq i, hmodq j] at hcls2
            have heq : dirSlot t (i % 2 ^ t.depth) = dirSlot t (j % 2 ^ t.depth) :=
              hcls2.mpr hcon
            have hjp : dirSlot t (j % 2 ^ t.depth) = pn := by
              refine (hchar _ (hmD j)).mpr ?_
              rw [hmodD j]
              exact hjd
            rw [hjp] at heq
            exact hqp heq
      · rw [if_neg hpj]
        by_cases hqp : dirSlot t (i % 2 ^ t.depth) = pn
        · rw [hqp, hpgpn]
          have hi1 : i % 2 ^ localDepth t pn = hsh % 2 ^ localDepth t pn := by
            have := (hchar _ (hmD i)).mp hqp
            rw [hmodD i] at this
            exact this
          have hi2 : i % 2 ^ (localDepth t pn + 1) = hsh % 2 ^ localDepth t pn :=
            hunres _ hpi hi1
          constructor
          · intro hcon
            have hjp : dirSlot t (j % 2 ^ t.depth) = pn := hcon.symm
            have hj1 : j % 2 ^ localDepth t pn = hsh % 2 ^ localDepth t pn := by
              have := (hchar _ (hmD j)).mp hjp
              rw [hmodD j] at this
              exact this
            have hj2 : j % 2 ^ (localDepth t pn + 1) = hsh % 2 ^ localDepth t pn :=
              hunres _ hpj hj1
            show i % 2 ^ (localDepth t pn + 1) = j % 2 ^ (localDepth t pn + 1)
            rw [hi2, hj2]
          · intro hcon
            have : i % 2 ^ (localDepth t pn + 1) = j % 2 ^ (localDepth t pn + 1) := hcon
            have hj2 : j % 2 ^ (localDepth t pn + 1) = hsh % 2 ^ localDepth t pn := by
              rw [← this, hi2]
            have hj1 : j % 2 ^ localDepth t pn = hsh % 2 ^ localDepth t pn := by
              have hm := mod_pow_le j (localDepth t pn) (localDepth t pn + 1) (by omega)
              rw [hj2] at hm
              rw [← hm, Nat.mod_eq_of_lt holdlt]
            have hjp : dirSlot t (j % 2 ^ t.depth) = pn := by
              refine (hchar _ (hmD j)).mpr ?_
              rw [hmodD j]
              exact hj1
            exact hjp.symm
        · have hqn : ¬ dirSlot t (i % 2 ^ t.depth) = t.pages.length := by
            have := hwf.ptr _ (hmD i)
            omega
          rw [hpgoth _ hqp hqn]
          have hdq := hwf.ldep _ (hmD i)
          have hcls2 := hwf.cls _ (hmD i) _ (hmD j)
          have hmodq : ∀ x : Nat,
              x % 2 ^ t.depth % 2 ^ (getPageB t (dirSlot t (i % 2 ^ t.depth))).depth =
                x % 2 ^ (getPageB t (dirSlot t (i % 2 ^ t.depth))).depth :=
            fun x => mod_pow_le x _ _ hdq
          rw [hmodq i, hmodq j] at hcls2
          exact hcls2
  · -- every page is reachable from the directory
    intro q hq
    rw [hpl3] at hq
    have hlenge : t.buckets.length ≤ (splitTE t pn).buckets.length := by
      rw [hlen, hlenE]
      exact Nat.pow_le_pow_right (by omega) hDE
    by_cases hqnew : q = t.pages.length
    · refine ⟨splitNewHash t pn hsh, ?_, ?_⟩
      · rw [hlen3, ← hlenE]
        calc splitNewHash t pn hsh < 2 ^ (localDepth t pn + 1) := hnewlt
          _ ≤ 2 ^ (splitTE t pn).depth := Nat.pow_le_pow_right (by omega) hD1
          _ = (splitTE t pn).buckets.length := hlenE.symm
      · have hbound : splitNewHash t pn hsh < (splitTE t pn).buckets.length := by
          calc splitNewHash t pn hsh < 2 ^ (localDepth t pn + 1) := hnewlt
            _ ≤ 2 ^ (splitTE t pn).depth := Nat.pow_le_pow_right (by omega) hD1
            _ = (splitTE t pn).buckets.length := hlenE.symm
        rw [hslot3 _ hbound, if_pos (Nat.mod_eq_of_lt hnewlt), hqnew]
    · by_cases hqpn : q = pn
      · refine ⟨hsh % 2 ^ localDepth t pn, ?_, ?_⟩
        · rw [hlen3, ← hlenE]
          have : 2 ^ localDepth t pn ≤ (splitTE t pn).buckets.length := by
            rw [hlenE]
            exact Nat.pow_le_pow_right (by omega) (by omega)
          omega
        · have hbound : hsh % 2 ^ localDepth t pn < (splitTE t pn).buckets.length := by
            have : 2 ^ localDepth t pn ≤ (splitTE t pn).buckets.length := by
              rw [hlenE]
              exact Nat.pow_le_pow_right (by omega) (by omega)
            omega
          have hnotred : ¬ hsh % 2 ^ localDepth t pn % 2 ^ (localDepth t pn + 1) =
              splitNewHash t pn hsh := by
            rw [Nat.mod_eq_of_lt (by rw [pow_succ]; omega)]
            unfold splitNewHash
            omega
          rw [hslot3 _ hbound, if_neg hnotred]
          have hsmall : hsh % 2 ^ localDepth t pn % 2 ^ t.depth =
              hsh % 2 ^ localDepth t pn := by
            refine Nat.mod_eq_of_lt ?_
            have : 2 ^ localDepth t pn ≤ 2 ^ t.depth :=
              Nat.pow_le_pow_right (by omega) hdle
            omega
          rw [hsmall, hqpn]
          refine (hchar _ ?_).mpr ?_
          · rw [hlen]
            have : 2 ^ localDepth t pn ≤ 2 ^ t.depth :=
              Nat.pow_le_pow_right (by omega) hdle
            omega
          · rw [Nat.mod_eq_of_lt holdlt]
      · have hqlt : q < t.pages.length := by omega
        obtain ⟨i, hi, hiq⟩ := hwf.ptd q hqlt
        refine ⟨i, ?_, ?_⟩
        · rw [hlen3, ← hlenE]
          omega
        · have hbound : i < (splitTE t pn).buckets.length := by omega
          have hnotred : ¬ i % 2 ^ (localDepth t pn + 1) = splitNewHash t pn hsh := by
            intro hcon
            have hi1 : i % 2 ^ localDepth t pn = hsh % 2 ^ localDepth t pn := hredres i hcon
            have : dirSlot t i = pn := (hchar i hi).mpr hi1
            rw [hiq] at this
            exact hqpn this
          rw [hslot3 _ hbound, if_neg hnotred, Nat.mod_eq_of_lt (hlen ▸ hi)]
          exact hiq

/-- Filtering by a key selects the same entries before and after a
pre-filter that keeps everything carrying that key. -/
theorem filter_key_sub (l : List HashEntry) (k : Int) (p : HashEntry → Bool)
    (hp : ∀ e : HashEntry, e.key = k → p e = true) :
    (l.filter p).filter (fun e => e.key = k) = l.filter (fun e => e.key = k) := by
  induction l with
  | nil => rfl
  | cons a as ih =>
      by_cases hk : a.key = k
      · have hpa : p a = true := hp a hk
        rw [List.filter_cons_of_pos hpa, List.filter_cons_of_pos (by simp [hk]),
          List.filter_cons_of_pos (by simp [hk]), ih]
      · by_cases hpa : p a = true
        · rw [List.filter_cons_of_pos hpa, List.filter_cons_of_neg (by simp [hk]),
            List.filter_cons_of_neg (by simp [hk]), ih]
        · rw [List.filter_cons_of_neg (by simp [hpa]),
            List.filter_cons_of_neg (by simp [hk]), ih]

/-- A split round moves a key's entries together with the directory
slot its hash selects: the bucket view of every key is unchanged. -/
theorem splitStep_keyEntries (H : Int → Nat) (t : HashTable) (pn hsh : Nat)
    (hwf : TableWF H t) (hpn : pn < t.pages.length)
    (hcls : ∃ j, j < t.buckets.length ∧ dirSlot t j = pn ∧
      j % 2 ^ localDepth t pn = hsh % 2 ^ localDepth t pn) (k : Int) :
    keyEntries H (splitStep H t pn hsh) k = keyEntries H t k := by
  have hlen := hwf.len
  have hchar := split_class_char H t pn hsh hwf hcls
  have hdle := split_ldep H t pn hsh hwf hcls
  have hD1 : localDepth t pn + 1 ≤ (splitTE t pn).depth := splitTE_d1_le t pn hdle
  have hDE : t.depth ≤ (splitTE t pn).depth := splitTE_depth_ge t pn
  have hlenE : (splitTE t pn).buckets.length = 2 ^ (splitTE t pn).depth :=
    splitTE_len t pn hlen
  have hdep3 : (splitStep H t pn hsh).depth = (splitTE t pn).depth :=
    splitStep_depth H t pn hsh
  have hpow : ∀ m : Nat, 0 < 2 ^ m := fun m => Nat.pos_pow_of_pos m (by omega)
  have hmD : ∀ i : Nat, i % 2 ^ t.depth < t.buckets.length := by
    intro i
    rw [hlen]
    exact Nat.mod_lt _ (hpow _)
  have holdlt : hsh % 2 ^ localDepth t pn < 2 ^ localDepth t pn := Nat.mod_lt _ (hpow _)
  have hnewmod : splitNewHash t pn hsh % 2 ^ localDepth t pn = hsh % 2 ^ localDepth t pn := by
    unfold splitNewHash
    rw [Nat.add_mod_right, Nat.mod_eq_of_lt holdlt]
  unfold keyEntries
  rw [hdep3]
  have hh3lt : Hasher H k (splitTE t pn).depth < (splitTE t pn).buckets.length := by
    rw [hlenE]
    exact Nat.mod_lt _ (hpow _)
  have hmod3D : Hasher H k (splitTE t pn).depth % 2 ^ t.depth = Hasher H k t.depth :=
    mod_pow_le _ _ _ hDE
  have hmod3d1 : Hasher H k (splitTE t pn).depth % 2 ^ (localDepth t pn + 1) =
      H k % 2 ^ (localDepth t pn + 1) := mod_pow_le _ _ _ hD1
  rw [splitStep_dirSlot H t pn hsh hlen _ hh3lt, hmod3D]
  by_cases hbp : dirSlot t (Hasher H k t.depth) = pn
  · by_cases hck : H k % 2 ^ (localDepth t pn + 1) = splitNewHash t pn hsh
    · rw [if_pos (by rw [hmod3d1]; exact hck), splitStep_page_new, hbp]
      show (splitMoved H t pn hsh).filter _ = _
      unfold splitMoved Hasher
      refine filter_key_sub _ _ _ ?_
      intro e he
      simp only [he]
      simp [hck]
    · rw [if_neg (by rw [hmod3d1]; exact hck), hbp, splitStep_page_pn H t pn hsh hpn]
      show (splitStayed H t pn hsh).filter _ = _
      unfold splitStayed Hasher
      refine filter_key_sub _ _ _ ?_
      intro e he
      simp only [he]
      simp [hck]
  · have hnr : ¬ Hasher H k (splitTE t pn).depth % 2 ^ (localDepth t pn + 1) =
        splitNewHash t pn hsh := by
      rw [hmod3d1]
      intro hcon
      apply hbp
      refine (hchar _ (hmD (H k))).mpr ?_
      have h1 : H k % 2 ^ (localDepth t pn + 1) % 2 ^ localDepth t pn =
          H k % 2 ^ localDepth t pn := mod_pow_le _ _ _ (by omega)
      have h2 : H k % 2 ^ t.depth % 2 ^ localDepth t pn = H k % 2 ^ localDepth t pn :=
        mod_pow_le _ _ _ hdle
      rw [hcon, hnewmod] at h1
      show H k % 2 ^ t.depth % 2 ^ localDepth t pn = hsh % 2 ^ localDepth t pn
      rw [h2]
      omega
    rw [if_neg hnr]
    have hql : dirSlot t (Hasher H k t.depth) < t.pages.length :=
      hwf.ptr _ (hmD (H k))
    rw [splitStep_page_other H t pn hsh _ hbp (by omega)]

theorem find?_eq_head_filter {α : Type} (l : List α) (p : α → Bool) :
    l.find? p = (l.filter p).head? := by
  induction l with
  | nil => rfl
  | cons a as ih =>
      cases h : p a
      · rw [List.find?_cons_of_neg _ (by simp [h]),
          List.filter_cons_of_neg (by simp [h]), ih]
      · rw [List.find?_cons_of_pos _ h, List.filter_cons_of_pos h, List.head?_cons]

open List in
/-- Replacing the bucket on one page exchanges exactly its entries in
the multiset of all stored entries. -/
theorem tableEntries_set_perm (l : List HashBucket) (pn : Nat) (x : HashBucket)
    (h : pn < l.length) :
    ((l.set pn x).map (fun b => b.entries)).flatten ++ (l.getD pn ⟨0, []⟩).entries ~
      (l.map (fun b => b.entries)).flatten ++ x.entries := by
  induction l generalizing pn with
  | nil => simp at h
  | cons a as ih =>
      cases pn with
      | zero =>
          simp only [List.set_cons_zero, List.map_cons, List.flatten_cons,
            List.getD_cons_zero]
          calc (x.entries ++ (as.map (fun b => b.entries)).flatten) ++ a.entries
              ~ x.entries ++ ((as.map (fun b => b.entries)).flatten ++ a.entries) := by
                rw [List.append_assoc]
            _ ~ x.entries ++ (a.entries ++ (as.map (fun b => b.entries)).flatten) :=
                List.Perm.append_left _ List.perm_append_comm
            _ ~ (a.entries ++ (as.map (fun b => b.entries)).flatten) ++ x.entries :=
                List.perm_append_comm
      | succ m =>
          simp only [List.set_cons_succ, List.map_cons, List.flatten_cons,
            List.getD_cons_succ]
          have hm : m < as.length := by simpa using h
          calc (a.entries ++ ((as.set m x).map (fun b => b.entries)).flatten) ++
                (as.getD m ⟨0, []⟩).entries
              ~ a.entries ++ (((as.set m x).map (fun b => b.entries)).flatten ++
                (as.getD m ⟨0, []⟩).entries) := by
                rw [List.append_assoc]
            _ ~ a.entries ++ ((as.map (fun b => b.entries)).flatten ++ x.entries) :=
                List.Perm.append_left _ (ih m hm)
            _ ~ (a.entries ++ (as.map (fun b => b.entries)).flatten) ++ x.entries := by
                rw [List.append_assoc]

open List in
/-- Abstract permutation step: exchanging E for S in a concatenation
while M completes S back to E. -/
theorem perm_swap_helper {α : Type} (A E F S M : List α)
    (h1 : A ++ E ~ F ++ S) (h2 : S ++ M ~ E) : A ++ M ~ F := by
  refine (List.perm_append_right_iff E).mp ?_
  calc A ++ M ++ E
      ~ A ++ (M ++ E) := by rw [List.append_assoc]
    _ ~ A ++ (E ++ M) := List.Perm.append_left _ List.perm_append_comm
    _ ~ (A ++ E) ++ M := by rw [List.append_assoc]
    _ ~ (F ++ S) ++ M := List.Perm.append_right _ h1
    _ ~ F ++ (S ++ M) := by rw [List.append_assoc]
    _ ~ F ++ E := List.Perm.append_left _ h2

open List in
/-- A split round permutes the stored entries: nothing is gained or
lost. -/
theorem splitStep_tableEntries (H : Int → Nat) (t : HashTable) (pn hsh : Nat)
    (hpn : pn < t.pages.length) :
    tableEntries (splitStep H t pn hsh) ~ tableEntries t := by
  unfold tableEntries splitStep
  simp only [splitTE_pages, List.map_append, List.flatten_append, List.map_cons,
    List.map_nil, List.flatten_cons, List.flatten_nil, List.append_nil]
  have hperm := tableEntries_set_perm t.pages pn
    ⟨(getPageB t pn).depth + 1,
      (getPageB t pn).entries.filter
        (fun e => ¬ Hasher H e.key ((getPageB t pn).depth + 1) =
          hsh % 2 ^ (getPageB t pn).depth + 2 ^ (getPageB t pn).depth)⟩ hpn
  have hpart : ((getPageB t pn).entries.filter
        (fun e => ¬ Hasher H e.key ((getPageB t pn).depth + 1) =
          hsh % 2 ^ (getPageB t pn).depth + 2 ^ (getPageB t pn).depth)) ++
      ((getPageB t pn).entries.filter
        (fun e => Hasher H e.key ((getPageB t pn).depth + 1) =
          hsh % 2 ^ (getPageB t pn).depth + 2 ^ (getPageB t pn).depth)) ~
      (getPageB t pn).entries := by
    have hfp := List.filter_append_perm
      (fun e => decide (Hasher H e.key ((getPageB t pn).depth + 1) =
        hsh % 2 ^ (getPageB t pn).depth + 2 ^ (getPageB t pn).depth))
      (getPageB t pn).entries
    have hSeq : (getPageB t pn).entries.filter
        (fun e => decide ¬ Hasher H e.key ((getPageB t pn).depth + 1) =
          hsh % 2 ^ (getPageB t pn).depth + 2 ^ (getPageB t pn).depth) =
        (getPageB t pn).entries.filter
          (fun e => ! decide (Hasher H e.key ((getPageB t pn).depth + 1) =
            hsh % 2 ^ (getPageB t pn).depth + 2 ^ (getPageB t pn).depth)) := by
      refine List.filter_congr ?_
      intro e _
      simp
    rw [hSeq]
    exact List.Perm.trans List.perm_append_comm hfp
  have hgetD : (t.pages.getD pn ⟨0, []⟩).entries = (getPageB t pn).entries := rfl
  rw [hgetD] at hperm
  exact perm_swap_helper _ _ _ _ _ hperm hpart

open List in
/-- Split preserves the invariant, the per-key bucket view, and the
multiset of stored entries, also through recursive splits. -/
theorem Split_sound (H : Int → Nat) (B fuel : Nat) :
    ∀ (t : HashTable) (pn hsh : Nat) (t' : HashTable),
      TableWF H t → pn < t.pages.length →
      (∃ j, j < t.buckets.length ∧ dirSlot t j = pn ∧
        j % 2 ^ localDepth t pn = hsh % 2 ^ localDepth t pn) →
      Split H B fuel t pn hsh = some t' →
      TableWF H t' ∧ (∀ k, keyEntries H t' k = keyEntries H t k) ∧
        tableEntries t' ~ tableEntries t := by
  induction fuel with
  | zero =>
      intro t pn hsh t' _ _ _ h
      cases h
  | succ fuel ih =>
      intro t pn hsh t' hwf hpn hcls h
      rw [Split_succ] at h
      have hlen := hwf.len
      have hchar := split_class_char H t pn hsh hwf hcls
      have hdle := split_ldep H t pn hsh hwf hcls
      have hD1 : localDepth t pn + 1 ≤ (splitTE t pn).depth := splitTE_d1_le t pn hdle
      have hDE : t.depth ≤ (splitTE t pn).depth := splitTE_depth_ge t pn
      have hlenE : (splitTE t pn).buckets.length = 2 ^ (splitTE t pn).depth :=
        splitTE_len t pn hlen
      have hlen3 : (splitStep H t pn hsh).buckets.length = 2 ^ (splitTE t pn).depth := by
        rw [splitStep_buckets_length, hlenE]
      have hpl3 : (splitStep H t pn hsh).pages.length = t.pages.length + 1 :=
        splitStep_pages_length H t pn hsh
      have hpow : ∀ m : Nat, 0 < 2 ^ m := fun m => Nat.pos_pow_of_pos m (by omega)
      have holdlt : hsh % 2 ^ localDepth t pn < 2 ^ localDepth t pn :=
        Nat.mod_lt _ (hpow _)
      have hd1pow : 2 ^ (localDepth t pn + 1) = 2 ^ localDepth t pn + 2 ^ localDepth t pn := by
        rw [pow_succ]
        omega
      have hnewlt : splitNewHash t pn hsh < 2 ^ (localDepth t pn + 1) := by
        unfold splitNewHash
        omega
      have hd1le3 : 2 ^ (localDepth t pn + 1) ≤ (splitStep H t pn hsh).buckets.length := by
        rw [hlen3]
        exact Nat.pow_le_pow_right (by omega) hD1
      have hwf3 := splitStep_WF H t pn hsh hwf hpn hcls
      have hkep := splitStep_keyEntries H t pn hsh hwf hpn hcls
      have hte := splitStep_tableEntries H t pn hsh hpn
      have hpgpn : getPageB (splitStep H t pn hsh) pn =
          ⟨localDepth t pn + 1, splitStayed H t pn hsh⟩ := splitStep_page_pn H t pn hsh hpn
      have hpgnew : getPageB (splitStep H t pn hsh) t.pages.length =
          ⟨localDepth t pn + 1, splitMoved H t pn hsh⟩ := splitStep_page_new H t pn hsh
      have hdD : 2 ^ localDepth t pn ≤ 2 ^ t.depth := Nat.pow_le_pow_right (by omega) hdle
      have hslotold : dirSlot (splitStep H t pn hsh) (hsh % 2 ^ localDepth t pn) = pn := by
        have hb : hsh % 2 ^ localDepth t pn < (splitTE t pn).buckets.length := by
          rw [hlenE]
          have : 2 ^ localDepth t pn ≤ 2 ^ (splitTE t pn).depth :=
            Nat.pow_le_pow_right (by omega) (by omega)
          omega
        rw [splitStep_dirSlot H t pn hsh hlen _ hb]
        have hsmall : hsh % 2 ^ localDepth t pn % 2 ^ (localDepth t pn + 1) =
            hsh % 2 ^ localDepth t pn := Nat.mod_eq_of_lt (by omega)
        rw [if_neg (by rw [hsmall]; unfold splitNewHash; omega)]
        have hsmallD : hsh % 2 ^ localDepth t pn % 2 ^ t.depth =
            hsh % 2 ^ localDepth t pn := Nat.mod_eq_of_lt (by omega)
        rw [hsmallD]
        refine (hchar _ ?_).mpr ?_
        · rw [hlen]
          omega
        · rw [Nat.mod_eq_of_lt holdlt]
      have hslotnew : dirSlot (splitStep H t pn hsh) (splitNewHash t pn hsh) =
          t.pages.length := by
        have hb : splitNewHash t pn hsh < (splitTE t pn).buckets.length := by
          rw [hlenE]
          have : 2 ^ (localDepth t pn + 1) ≤ 2 ^ (splitTE t pn).depth :=
            Nat.pow_le_pow_right (by omega) hD1
          omega
        rw [splitStep_dirSlot H t pn hsh hlen _ hb,
          if_pos (Nat.mod_eq_of_lt hnewlt)]
      by_cases h1 : B ≤ (splitStayed H t pn hsh).length
      · rw [if_pos h1] at h
        have hpn3 : pn < (splitStep H t pn hsh).pages.length := by omega
        have hcls3 : ∃ j, j < (splitStep H t pn hsh).buckets.length ∧
            dirSlot (splitStep H t pn hsh) j = pn ∧
            j % 2 ^ localDepth (splitStep H t pn hsh) pn =
              (hsh % 2 ^ localDepth t pn) % 2 ^ localDepth (splitStep H t pn hsh) pn := by
          refine ⟨hsh % 2 ^ localDepth t pn, ?_, hslotold, rfl⟩
          omega
        obtain ⟨hw, hke, hpe⟩ := ih _ _ _ _ hwf3 hpn3 hcls3 h
        refine ⟨hw, ?_, hpe.trans hte⟩
        intro k
        rw [hke k, hkep k]
      · rw [if_neg h1] at h
        by_cases h2 : B ≤ (splitMoved H t pn hsh).length
        · rw [if_pos h2] at h
          have hnew3 : t.pages.length < (splitStep H t pn hsh).pages.length := by omega
          have hcls3 : ∃ j, j < (splitStep H t pn hsh).buckets.length ∧
              dirSlot (splitStep H t pn hsh) j = t.pages.length ∧
              j % 2 ^ localDepth (splitStep H t pn hsh) t.pages.length =
                splitNewHash t pn hsh %
                  2 ^ localDepth (splitStep H t pn hsh) t.pages.length := by
            refine ⟨splitNewHash t pn hsh, ?_, hslotnew, rfl⟩
            omega
          obtain ⟨hw, hke, hpe⟩ := ih _ _ _ _ hwf3 hnew3 hcls3 h
          refine ⟨hw, ?_, hpe.trans hte⟩
          intro k
          rw [hke k, hkep k]
        · rw [if_neg h2] at h
          injection h with h
          subst h
          exact ⟨hwf3, hkep, hte⟩

theorem getPageB_setPage_self (t : HashTable) (pn : Nat) (b : HashBucket)
    (h : pn < t.pages.length) : getPageB (setPage t pn b) pn = b := by
  unfold getPageB setPage
  exact getD_set_self _ _ _ _ h

theorem getPageB_setPage_other (t : HashTable) (pn q : Nat) (b : HashBucket)
    (h : ¬ pn = q) : getPageB (setPage t pn b) q = getPageB t q := by
  unfold getPageB setPage
  exact getD_set_other _ _ _ _ _ h

open List in
/-- Insert preserves the invariant, appends the entry to its key's
bucket view, leaves every other key's view unchanged, and adds exactly
the one entry to the stored multiset. -/
theorem Insert_sound (H : Int → Nat) (B fuel : Nat) (t : HashTable) (k v : Int)
    (t' : HashTable) (hwf : TableWF H t) (h : Insert H B fuel t k v = some t') :
    TableWF H t' ∧
      keyEntries H t' k = keyEntries H t k ++ [⟨k, v⟩] ∧
      (∀ k2, ¬ k2 = k → keyEntries H t' k2 = keyEntries H t k2) ∧
      tableEntries t' ~ tableEntries t ++ [⟨k, v⟩] := by
  have hlen := hwf.len
  have hpow : ∀ m : Nat, 0 < 2 ^ m := fun m => Nat.pos_pow_of_pos m (by omega)
  have hh0 : Hasher H k t.depth < t.buckets.length := by
    rw [hlen]
    exact Nat.mod_lt _ (hpow _)
  have hpn : dirSlot t (Hasher H k t.depth) < t.pages.length := hwf.ptr _ hh0
  have hdle : (getPageB t (dirSlot t (Hasher H k t.depth))).depth ≤ t.depth :=
    hwf.ldep _ hh0
  -- the intermediate table with the entry appended
  have hps : ∀ q, (getPageB (setPage t (dirSlot t (Hasher H k t.depth))
      ⟨(getPageB t (dirSlot t (Hasher H k t.depth))).depth,
        (getPageB t (dirSlot t (Hasher H k t.depth))).entries ++ [⟨k, v⟩]⟩) q).depth =
      (getPageB t q).depth := by
    intro q
    by_cases hq : dirSlot t (Hasher H k t.depth) = q
    · rw [← hq, getPageB_setPage_self _ _ _ hpn]
    · rw [getPageB_setPage_other _ _ _ _ hq]
  set pn := dirSlot t (Hasher H k t.depth) with hpndef
  set b1 : HashBucket := ⟨(getPageB t pn).depth, (getPageB t pn).entries ++ [⟨k, v⟩]⟩
    with hb1def
  set t1 := setPage t pn b1 with ht1def
  have ht1buckets : t1.buckets = t.buckets := rfl
  have ht1depth : t1.depth = t.depth := rfl
  have ht1pl : t1.pages.length = t.pages.length := by
    rw [ht1def]
    unfold setPage
    simp
  have ht1slot : ∀ i, dirSlot t1 i = dirSlot t i := fun i => rfl
  have ht1pn : getPageB t1 pn = b1 := getPageB_setPage_self _ _ _ hpn
  have ht1other : ∀ q, ¬ q = pn → getPageB t1 q = getPageB t q := by
    intro q hq
    exact getPageB_setPage_other _ _ _ _ (fun hc => hq hc.symm)
  have hkeymod : H k % 2 ^ (getPageB t pn).depth =
      Hasher H k t.depth % 2 ^ (getPageB t pn).depth := (mod_pow_le _ _ _ hdle).symm
  have hwf1 : TableWF H t1 := by
    refine ⟨?_, ?_, ?_, ?_, ?_, ?_⟩
    · rw [ht1buckets, ht1depth]
      exact hlen
    · intro i hi
      rw [ht1buckets] at hi
      rw [ht1slot, ht1pl]
      exact hwf.ptr i hi
    · intro i hi
      rw [ht1buckets] at hi
      rw [ht1slot, hps, ht1depth]
      exact hwf.ldep i hi
    · intro i hi e he
      rw [ht1buckets] at hi
      rw [ht1slot] at he ⊢
      rw [hps]
      by_cases hip : dirSlot t i = pn
      · rw [hip, ht1pn] at he
        rcases List.mem_append.mp he with h1 | h1
        · exact hwf.keys i hi e (by rw [hip]; exact h1)
        · have he2 : e = ⟨k, v⟩ := by simpa using h1
          subst he2
          have hcl := hwf.cls _ hh0 i hi
          have : pn = dirSlot t i := hip.symm
          have h2 := hcl.mp (by rw [← hpndef, ← this])
          rw [← hpndef] at h2
          show H k % 2 ^ (getPageB t (dirSlot t i)).depth =
            i % 2 ^ (getPageB t (dirSlot t i)).depth
          rw [hip, hkeymod, h2]
      · rw [ht1other _ hip] at he
        exact hwf.keys i hi e he
    · intro i hi j hj
      rw [ht1buckets] at hi hj
      rw [ht1slot, ht1slot, hps]
      exact hwf.cls i hi j hj
    · intro q hq
      rw [ht1pl] at hq
      obtain ⟨i, hi, hiq⟩ := hwf.ptd q hq
      exact ⟨i, by rw [ht1buckets]; exact hi, by rw [ht1slot]; exact hiq⟩
  have hk1 : keyEntries H t1 k = keyEntries H t k ++ [⟨k, v⟩] := by
    unfold keyEntries
    rw [ht1slot, ht1depth, ← hpndef, ht1pn, hb1def]
    show ((getPageB t pn).entries ++ [(⟨k, v⟩ : HashEntry)]).filter (fun e => e.key = k) = _
    rw [List.filter_append]
    congr 1
    simp
  have hk2 : ∀ k2, ¬ k2 = k → keyEntries H t1 k2 = keyEntries H t k2 := by
    intro k2 hk2
    unfold keyEntries
    rw [ht1slot, ht1depth]
    by_cases hq : dirSlot t (Hasher H k2 t.depth) = pn
    · rw [hq, ht1pn, hb1def]
      show ((getPageB t pn).entries ++ [(⟨k, v⟩ : HashEntry)]).filter (fun e => e.key = k2) = _
      rw [List.filter_append]
      have : ([(⟨k, v⟩ : HashEntry)].filter (fun e => e.key = k2)) = [] := by
        simp [hk2]
        intro hc
        exact absurd hc.symm hk2
      rw [this, List.append_nil]
    · rw [ht1other _ hq]
  have hte1 : tableEntries t1 ~ tableEntries t ++ [⟨k, v⟩] := by
    have hperm := tableEntries_set_perm t.pages pn b1 hpn
    have hgetD : (t.pages.getD pn ⟨0, []⟩).entries = (getPageB t pn).entries := rfl
    rw [hgetD] at hperm
    have hshape : tableEntries t1 = ((t.pages.set pn b1).map (fun b => b.entries)).flatten := rfl
    rw [hshape]
    show _ ~ tableEntries t ++ [⟨k, v⟩]
    refine (perm_append_right_iff (getPageB t pn).entries).mp ?_
    calc ((t.pages.set pn b1).map (fun b => b.entries)).flatten ++ (getPageB t pn).entries
        ~ tableEntries t ++ b1.entries := hperm
      _ ~ tableEntries t ++ ((getPageB t pn).entries ++ [⟨k, v⟩]) := by rw [hb1def]
      _ ~ tableEntries t ++ ([⟨k, v⟩] ++ (getPageB t pn).entries) :=
          List.Perm.append_left _ List.perm_append_comm
      _ ~ (tableEntries t ++ [⟨k, v⟩]) ++ (getPageB t pn).entries := by
          rw [List.append_assoc]
  -- unfold Insert and case on the split condition
  rw [show Insert H B fuel t k v =
      (if B ≤ b1.entries.length then Split H B fuel t1 pn (Hasher H k t.depth)
       else some t1) from rfl] at h
  by_cases hsplit : B ≤ b1.entries.length
  · rw [if_pos hsplit] at h
    have hpn1 : pn < t1.pages.length := by
      rw [ht1pl]
      exact hpn
    have hcls1 : ∃ j, j < t1.buckets.length ∧ dirSlot t1 j = pn ∧
        j % 2 ^ localDepth t1 pn = Hasher H k t.depth % 2 ^ localDepth t1 pn := by
      exact ⟨Hasher H k t.depth, by rw [ht1buckets]; exact hh0, rfl, rfl⟩
    obtain ⟨hw, hke, hpe⟩ := Split_sound H B fuel t1 pn (Hasher H k t.depth) t' hwf1 hpn1 hcls1 h
    refine ⟨hw, ?_, ?_, hpe.trans hte1⟩
    · rw [hke k, hk1]
    · intro k2 hk
      rw [hke k2, hk2 k2 hk]
  · rw [if_neg hsplit] at h
    injection h with h
    subst h
    exact ⟨hwf1, hk1, hk2, hte1⟩

theorem replaceFirst_mem (l : List HashEntry) (k v : Int) (x : HashEntry)
    (h : x ∈ replaceFirst l k v) : x ∈ l ∨ x = ⟨k, v⟩ := by
  induction l with
  | nil => simp [replaceFirst] at h
  | cons e es ih =>
      unfold replaceFirst at h
      by_cases hk : e.key = k
      · rw [if_pos hk] at h
        rcases List.mem_cons.mp h with h1 | h1
        · exact Or.inr h1
        · exact Or.inl (List.mem_cons_of_mem e h1)
      · rw [if_neg hk] at h
        rcases List.mem_cons.mp h with h1 | h1
        · exact Or.inl (h1 ▸ List.mem_cons_self e es)
        · rcases ih h1 with h2 | h2
          · exact Or.inl (List.mem_cons_of_mem e h2)
          · exact Or.inr h2

theorem replaceFirst_filter_ne (l : List HashEntry) (k v : Int) (k2 : Int)
    (hne : ¬ k2 = k) :
    (replaceFirst l k v).filter (fun e => e.key = k2) =
      l.filter (fun e => e.key = k2) := by
  induction l with
  | nil => rfl
  | cons e es ih =>
      unfold replaceFirst
      by_cases hk : e.key = k
      · rw [if_pos hk]
        rw [List.filter_cons_of_neg (by simp; intro hc; exact absurd hc.symm hne),
          List.filter_cons_of_neg (by simp [hk]; intro hc; exact hne hc.symm)]
      · rw [if_neg hk]
        by_cases hk2 : e.key = k2
        · rw [List.filter_cons_of_pos (by simp [hk2]),
            List.filter_cons_of_pos (by simp [hk2]), ih]
        · rw [List.filter_cons_of_neg (by simp [hk2]),
            List.filter_cons_of_neg (by simp [hk2]), ih]

theorem eraseFirst_mem (l : List HashEntry) (k : Int) (l' : List HashEntry)
    (h : eraseFirst l k = some l') (x : HashEntry) (hx : x ∈ l') : x ∈ l := by
  induction l generalizing l' with
  | nil => simp [eraseFirst] at h
  | cons e es ih =>
      unfold eraseFirst at h
      by_cases hk : e.key = k
      · rw [if_pos hk] at h
        injection h with h
        subst h
        exact List.mem_cons_of_mem e hx
      · rw [if_neg hk] at h
        cases he : eraseFirst es k with
        | none => rw [he] at h; cases h
        | some es2 =>
            rw [he] at h
            simp only [Option.map] at h
            injection h with h
            subst h
            rcases List.mem_cons.mp hx with h1 | h1
            · exact h1 ▸ List.mem_cons_self e es
            · exact List.mem_cons_of_mem e (ih es2 he h1)

theorem eraseFirst_filter_ne (l : List HashEntry) (k : Int) (l' : List HashEntry)
    (h : eraseFirst l k = some l') (k2 : Int) (hne : ¬ k2 = k) :
    l'.filter (fun e => e.key = k2) = l.filter (fun e => e.key = k2) := by
  induction l generalizing l' with
  | nil => simp [eraseFirst] at h
  | cons e es ih =>
      unfold eraseFirst at h
      by_cases hk : e.key = k
      · rw [if_pos hk] at h
        injection h with h
        subst h
        rw [List.filter_cons_of_neg (by simp [hk]; intro hc; exact hne hc.symm)]
      · rw [if_neg hk] at h
        cases he : eraseFirst es k with
        | none => rw [he] at h; cases h
        | some es2 =>
            rw [he] at h
            simp only [Option.map] at h
            injection h with h
            subst h
            by_cases hk2 : e.key = k2
            · rw [List.filter_cons_of_pos (by simp [hk2]),
                List.filter_cons_of_pos (by simp [hk2]), ih es2 he]
            · rw [List.filter_cons_of_neg (by simp [hk2]),
                List.filter_cons_of_neg (by simp [hk2]), ih es2 he]

/-- Update preserves the invariant and the bucket view of every other
key. -/
theorem Update_sound (H : Int → Nat) (t : HashTable) (k v : Int) (t' : HashTable)
    (hwf : TableWF H t) (h : Update H t k v = some t') :
    TableWF H t' ∧ (∀ k2, ¬ k2 = k → keyEntries H t' k2 = keyEntries H t k2) := by
  have hlen := hwf.len
  have hpow : ∀ m : Nat, 0 < 2 ^ m := fun m => Nat.pos_pow_of_pos m (by omega)
  have hh0 : Hasher H k t.depth < t.buckets.length := by
    rw [hlen]
    exact Nat.mod_lt _ (hpow _)
  have hpn : dirSlot t (Hasher H k t.depth) < t.pages.length := hwf.ptr _ hh0
  have hdle : (getPageB t (dirSlot t (Hasher H k t.depth))).depth ≤ t.depth :=
    hwf.ldep _ hh0
  rw [show Update H t k v =
      (match bucketFind (getPageB t (dirSlot t (Hasher H k t.depth))) k with
       | none => none
       | some _ => some (setPage t (dirSlot t (Hasher H k t.depth))
           ⟨(getPageB t (dirSlot t (Hasher H k t.depth))).depth,
             replaceFirst (getPageB t (dirSlot t (Hasher H k t.depth))).entries k v⟩))
      from rfl] at h
  cases hf : bucketFind (getPageB t (dirSlot t (Hasher H k t.depth))) k with
  | none => rw [hf] at h; cases h
  | some e0 =>
      rw [hf] at h
      injection h with h
      subst h
      set pn := dirSlot t (Hasher H k t.depth) with hpndef
      set b1 : HashBucket := ⟨(getPageB t pn).depth,
        replaceFirst (getPageB t pn).entries k v⟩ with hb1def
      have ht1pn : getPageB (setPage t pn b1) pn = b1 := getPageB_setPage_self _ _ _ hpn
      have ht1other : ∀ q, ¬ q = pn → getPageB (setPage t pn b1) q = getPageB t q :=
        fun q hq => getPageB_setPage_other _ _ _ _ (fun hc => hq hc.symm)
      have hps : ∀ q, (getPageB (setPage t pn b1) q).depth = (getPageB t q).depth := by
        intro q
        by_cases hq : q = pn
        · rw [hq, ht1pn]
        · rw [ht1other _ hq]
      have ht1pl : (setPage t pn b1).pages.length = t.pages.length := by
        unfold setPage
        simp
      have hkeymod : H k % 2 ^ (getPageB t pn).depth =
          Hasher H k t.depth % 2 ^ (getPageB t pn).depth := (mod_pow_le _ _ _ hdle).symm
      constructor
      · refine ⟨hlen, ?_, ?_, ?_, ?_, ?_⟩
        · intro i hi
          rw [ht1pl]
          exact hwf.ptr i hi
        · intro i hi
          show (getPageB (setPage t pn b1) (dirSlot t i)).depth ≤ t.depth
          rw [hps]
          exact hwf.ldep i hi
        · intro i hi e he
          show H e.key % 2 ^ (getPageB (setPage t pn b1) (dirSlot t i)).depth =
            i % 2 ^ (getPageB (setPage t pn b1) (dirSlot t i)).depth
          rw [hps]
          rw [show dirSlot (setPage t pn b1) i = dirSlot t i from rfl] at he
          by_cases hip : dirSlot t i = pn
          · rw [hip, ht1pn] at he
            rcases replaceFirst_mem _ _ _ _ he with h1 | h1
            · exact hwf.keys i hi e (by rw [hip]; exact h1)
            · subst h1
              have hcl := hwf.cls _ hh0 i hi
              have h2 := hcl.mp (by rw [← hpndef, hip])
              rw [← hpndef] at h2
              rw [hip, hkeymod, h2]
          · rw [ht1other _ hip] at he
            exact hwf.keys i hi e he
        · intro i hi j hj
          show dirSlot t i = dirSlot t j ↔
            i % 2 ^ (getPageB (setPage t pn b1) (dirSlot t i)).depth =
              j % 2 ^ (getPageB (setPage t pn b1) (dirSlot t i)).depth
          rw [hps]
          exact hwf.cls i hi j hj
        · intro q hq
          rw [ht1pl] at hq
          exact hwf.ptd q hq
      · intro k2 hk2
        unfold keyEntries
        show ((getPageB (setPage t pn b1) (dirSlot t (Hasher H k2 t.depth)))).entries.filter
          (fun e => e.key = k2) = _
        by_cases hq : dirSlot t (Hasher H k2 t.depth) = pn
        · rw [hq, ht1pn, hb1def]
          show (replaceFirst (getPageB t pn).entries k v).filter (fun e => e.key = k2) = _
          rw [replaceFirst_filter_ne _ _ _ _ hk2]
        · rw [ht1other _ hq]

/-- Delete preserves the invariant and the bucket view of every other
key. -/
theorem Delete_sound (H : Int → Nat) (t : HashTable) (k : Int) (t' : HashTable)
    (hwf : TableWF H t) (h : Delete H t k = some t') :
    TableWF H t' ∧ (∀ k2, ¬ k2 = k → keyEntries H t' k2 = keyEntries H t k2) := by
  have hlen := hwf.len
  have hpow : ∀ m : Nat, 0 < 2 ^ m := fun m => Nat.pos_pow_of_pos m (by omega)
  have hh0 : Hasher H k t.depth < t.buckets.length := by
    rw [hlen]
    exact Nat.mod_lt _ (hpow _)
  have hpn : dirSlot t (Hasher H k t.depth) < t.pages.length := hwf.ptr _ hh0
  rw [show Delete H t k =
      (match eraseFirst (getPageB t (dirSlot t (Hasher H k t.depth))).entries k with
       | none => none
       | some es => some (setPage t (dirSlot t (Hasher H k t.depth))
           ⟨(getPageB t (dirSlot t (Hasher H k t.depth))).depth, es⟩))
      from rfl] at h
  cases hf : eraseFirst (getPageB t (dirSlot t (Hasher H k t.depth))).entries k with
  | none => rw [hf] at h; cases h
  | some es =>
      rw [hf] at h
      injection h with h
      subst h
      set pn := dirSlot t (Hasher H k t.depth) with hpndef
      set b1 : HashBucket := ⟨(getPageB t pn).depth, es⟩ with hb1def
      have ht1pn : getPageB (setPage t pn b1) pn = b1 := getPageB_setPage_self _ _ _ hpn
      have ht1other : ∀ q, ¬ q = pn → getPageB (setPage t pn b1) q = getPageB t q :=
        fun q hq => getPageB_setPage_other _ _ _ _ (fun hc => hq hc.symm)
      have hps : ∀ q, (getPageB (setPage t pn b1) q).depth = (getPageB t q).depth := by
        intro q
        by_cases hq : q = pn
        · rw [hq, ht1pn]
        · rw [ht1other _ hq]
      have ht1pl : (setPage t pn b1).pages.length = t.pages.length := by
        unfold setPage
        simp
      constructor
      · refine ⟨hlen, ?_, ?_, ?_, ?_, ?_⟩
        · intro i hi
          rw [ht1pl]
          exact hwf.ptr i hi
        · intro i hi
          show (getPageB (setPage t pn b1) (dirSlot t i)).depth ≤ t.depth
          rw [hps]
          exact hwf.ldep i hi
        · intro i hi e he
          show H e.key % 2 ^ (getPageB (setPage t pn b1) (dirSlot t i)).depth =
            i % 2 ^ (getPageB (setPage t pn b1) (dirSlot t i)).depth
          rw [hps]
          rw [show dirSlot (setPage t pn b1) i = dirSlot t i from rfl] at he
          by_cases hip : dirSlot t i = pn
          · rw [hip, ht1pn] at he
            have h1 : e ∈ (getPageB t pn).entries := eraseFirst_mem _ _ _ hf e he
            exact hwf.keys i hi e (by rw [hip]; exact h1)
          · rw [ht1other _ hip] at he
            exact hwf.keys i hi e he
        · intro i hi j hj
          show dirSlot t i = dirSlot t j ↔
            i % 2 ^ (getPageB (setPage t pn b1) (dirSlot t i)).depth =
              j % 2 ^ (getPageB (setPage t pn b1) (dirSlot t i)).depth
          rw [hps]
          exact hwf.cls i hi j hj
        · intro q hq
          rw [ht1pl] at hq
          exact hwf.ptd q hq
      · intro k2 hk2
        unfold keyEntries
        show ((getPageB (setPage t pn b1) (dirSlot t (Hasher H k2 t.depth)))).entries.filter
          (fun e => e.key = k2) = _
        by_cases hq : dirSlot t (Hasher H k2 t.depth) = pn
        · rw [hq, ht1pn, hb1def]
          show es.filter (fun e => e.key = k2) = _
          rw [eraseFirst_filter_ne _ _ _ hf _ hk2]
        · rw [ht1other _ hq]

/-- The initial table satisfies the invariant. -/
theorem newHashTable_WF (H : Int → Nat) : TableWF H newHashTable := by
  have hempty : ∀ q, (getPageB newHashTable q).entries = [] := by
    intro q
    unfold getPageB newHashTable
    match q with
    | 0 => rfl
    | 1 => rfl
    | 2 => rfl
    | 3 => rfl
    | n + 4 => rfl
  refine ⟨by decide, by decide, by decide, ?_, by decide, by decide⟩
  intro i hi e he
  rw [hempty] at he
  cases he

/-- Every successful operation preserves the invariant. -/
theorem applyTOp_WF (H : Int → Nat) (B fuel : Nat) (t t2 : HashTable) (op : TOp)
    (hwf : TableWF H t) (h : applyTOp H B fuel t op = some t2) : TableWF H t2 := by
  cases op with
  | ins k v => exact (Insert_sound H B fuel t k v t2 hwf h).1
  | upd k v => exact (Update_sound H t k v t2 hwf h).1
  | del k => exact (Delete_sound H t k t2 hwf h).1

/-- Sequences of successful operations preserve the invariant. -/
theorem applyTOps_WF (H : Int → Nat) (B fuel : Nat) :
    ∀ (ops : List TOp) (t t2 : HashTable),
      TableWF H t → applyTOps H B fuel ops t = some t2 → TableWF H t2 := by
  intro ops
  induction ops with
  | nil =>
      intro t t2 hwf h
      injection h with h
      subst h
      exact hwf
  | cons op rest ih =>
      intro t t2 hwf h
      unfold applyTOps at h
      cases hop : applyTOp H B fuel t op with
      | none => rw [hop] at h; cases h
      | some t1 =>
          rw [hop] at h
          exact ih t1 t2 (applyTOp_WF H B fuel t t1 op hwf hop) h

/-- Every reachable table satisfies the invariant. -/
theorem reachT_WF (H : Int → Nat) (B : Nat) (t : HashTable) (h : ReachT H B t) :
    TableWF H t := by
  obtain ⟨fuel, ops, hops⟩ := h
  exact applyTOps_WF H B fuel ops newHashTable t (newHashTable_WF H) hops

/-- C2: in every hash-table state reachable from the initial state by
Insert/Update/Delete, every directory slot i pointing to a bucket with
local depth d is congruent to hash(k, d) modulo 2^d for every key k
stored in that bucket. -/
theorem C2_directory_slot_invariant (H : Int → Nat) (B : Nat) (t : HashTable)
    (h : ReachT H B t) :
    ∀ i < t.buckets.length, ∀ e ∈ (getPageB t (dirSlot t i)).entries,
      i % 2 ^ (getPageB t (dirSlot t i)).depth =
        Hasher H e.key ((getPageB t (dirSlot t i)).depth) %
          2 ^ (getPageB t (dirSlot t i)).depth := by
  have hwf := reachT_WF H B t h
  intro i hi e he
  have hk := hwf.keys i hi e he
  unfold Hasher
  rw [Nat.mod_mod_of_dvd _ (dvd_refl _)]
  omega

/-- Witness for C2: the table reached by inserting keys 0, 4 and 8
with bucket size 3 (which splits a bucket and doubles the directory)
satisfies the slot congruence. -/
theorem C2_directory_slot_invariant_witness :
    ReachT natHash 3
      ⟨3, [0, 1, 2, 3, 4, 1, 2, 3],
        [⟨3, [⟨0, 10⟩, ⟨8, 12⟩]⟩, ⟨2, []⟩, ⟨2, []⟩, ⟨2, []⟩, ⟨3, [⟨4, 11⟩]⟩]⟩ ∧
      (∀ i < ([0, 1, 2, 3, 4, 1, 2, 3] : List Nat).length,
        ∀ e ∈ (getPageB
            ⟨3, [0, 1, 2, 3, 4, 1, 2, 3],
              [⟨3, [⟨0, 10⟩, ⟨8, 12⟩]⟩, ⟨2, []⟩, ⟨2, []⟩, ⟨2, []⟩, ⟨3, [⟨4, 11⟩]⟩]⟩
            (dirSlot
              ⟨3, [0, 1, 2, 3, 4, 1, 2, 3],
                [⟨3, [⟨0, 10⟩, ⟨8, 12⟩]⟩, ⟨2, []⟩, ⟨2, []⟩, ⟨2, []⟩, ⟨3, [⟨4, 11⟩]⟩]⟩
              i)).entries,
          i % 2 ^ (getPageB
              ⟨3, [0, 1, 2, 3, 4, 1, 2, 3],
                [⟨3, [⟨0, 10⟩, ⟨8, 12⟩]⟩, ⟨2, []⟩, ⟨2, []⟩, ⟨2, []⟩, ⟨3, [⟨4, 11⟩]⟩]⟩
              (dirSlot
                ⟨3, [0, 1, 2, 3, 4, 1, 2, 3],
                  [⟨3, [⟨0, 10⟩, ⟨8, 12⟩]⟩, ⟨2, []⟩, ⟨2, []⟩, ⟨2, []⟩, ⟨3, [⟨4, 11⟩]⟩]⟩
                i)).depth =
            Hasher natHash e.key ((getPageB
              ⟨3, [0, 1, 2, 3, 4, 1, 2, 3],
                [⟨3, [⟨0, 10⟩, ⟨8, 12⟩]⟩, ⟨2, []⟩, ⟨2, []⟩, ⟨2, []⟩, ⟨3, [⟨4, 11⟩]⟩]⟩
              (dirSlot
                ⟨3, [0, 1, 2, 3, 4, 1, 2, 3],
                  [⟨3, [⟨0, 10⟩, ⟨8, 12⟩]⟩, ⟨2, []⟩, ⟨2, []⟩, ⟨2, []⟩, ⟨3, [⟨4, 11⟩]⟩]⟩
                i)).depth) %
              2 ^ (getPageB
                ⟨3, [0, 1, 2, 3, 4, 1, 2, 3],
                  [⟨3, [⟨0, 10⟩, ⟨8, 12⟩]⟩, ⟨2, []⟩, ⟨2, []⟩, ⟨2, []⟩, ⟨3, [⟨4, 11⟩]⟩]⟩
                (dirSlot
                  ⟨3, [0, 1, 2, 3, 4, 1, 2, 3],
                    [⟨3, [⟨0, 10⟩, ⟨8, 12⟩]⟩, ⟨2, []⟩, ⟨2, []⟩, ⟨2, []⟩, ⟨3, [⟨4, 11⟩]⟩]⟩
                  i)).depth) := by
  have hr : ReachT natHash 3
      ⟨3, [0, 1, 2, 3, 4, 1, 2, 3],
        [⟨3, [⟨0, 10⟩, ⟨8, 12⟩]⟩, ⟨2, []⟩, ⟨2, []⟩, ⟨2, []⟩, ⟨3, [⟨4, 11⟩]⟩]⟩ :=
    ⟨10, [TOp.ins 0 10, TOp.ins 4 11, TOp.ins 8 12], by decide⟩
  exact ⟨hr, C2_directory_slot_invariant natHash 3 _ hr⟩

theorem head?_append_of_some {α : Type} (l l2 : List α) (y : α)
    (h : l.head? = some y) : (l ++ l2).head? = some y := by
  cases l with
  | nil => cases h
  | cons a as => exact h

/-- Under the invariant, Find is the value of the first entry of the
key's bucket view. -/
theorem Find_eq_keyEntries (H : Int → Nat) (t : HashTable) (k : Int)
    (hwf : TableWF H t) :
    Find H t k = ((keyEntries H t k).head?).map (fun e => e.value) := by
  have hh0 : Hasher H k t.depth < t.buckets.length := by
    rw [hwf.len]
    exact Nat.mod_lt _ (Nat.pos_pow_of_pos _ (by omega))
  unfold Find keyEntries
  simp only
  rw [if_pos hh0]
  unfold bucketFind
  rw [find?_eq_head_filter]

/-- Stability of a key's first entry under operations that do not
update or delete that key. -/
theorem applyTOps_keyHead (H : Int → Nat) (B fuel : Nat) (k v : Int) :
    ∀ (ops : List TOp) (t t2 : HashTable),
      TableWF H t → (keyEntries H t k).head? = some ⟨k, v⟩ →
      (∀ op ∈ ops, (∀ v0, ¬ op = TOp.upd k v0) ∧ ¬ op = TOp.del k) →
      applyTOps H B fuel ops t = some t2 →
      TableWF H t2 ∧ (keyEntries H t2 k).head? = some ⟨k, v⟩ := by
  intro ops
  induction ops with
  | nil =>
      intro t t2 hwf hhead _ h
      injection h with h
      subst h
      exact ⟨hwf, hhead⟩
  | cons op rest ih =>
      intro t t2 hwf hhead havoid h
      unfold applyTOps at h
      cases hop : applyTOp H B fuel t op with
      | none => rw [hop] at h; cases h
      | some t1 =>
          rw [hop] at h
          have hrest : ∀ op2 ∈ rest, (∀ v0, ¬ op2 = TOp.upd k v0) ∧ ¬ op2 = TOp.del k :=
            fun op2 hm => havoid op2 (List.mem_cons_of_mem op hm)
          have hstep : TableWF H t1 ∧ (keyEntries H t1 k).head? = some ⟨k, v⟩ := by
            cases op with
            | ins k2 v2 =>
                obtain ⟨hw, hself, hother, _⟩ := Insert_sound H B fuel t k2 v2 t1 hwf hop
                refine ⟨hw, ?_⟩
                by_cases hk : k2 = k
                · subst hk
                  rw [hself]
                  exact head?_append_of_some _ _ _ hhead
                · rw [hother k (fun hc => hk hc.symm)]
                  exact hhead
            | upd k2 v2 =>
                obtain ⟨hw, hother⟩ := Update_sound H t k2 v2 t1 hwf hop
                have hne : ¬ k = k2 := by
                  intro hc
                  exact ((havoid _ (List.mem_cons_self _ _)).1 v2) (by rw [hc])
                refine ⟨hw, ?_⟩
                rw [hother k hne]
                exact hhead
            | del k2 =>
                obtain ⟨hw, hother⟩ := Delete_sound H t k2 t1 hwf hop
                have hne : ¬ k = k2 := by
                  intro hc
                  exact (havoid _ (List.mem_cons_self _ _)).2 (by rw [hc])
                refine ⟨hw, ?_⟩
                rw [hother k hne]
                exact hhead
          exact ih t1 t2 hstep.1 hstep.2 hrest h

/-- C1 amended: after Insert(k,v) succeeds on a reachable table in
which k is not already present, Find(k) returns v until a subsequent
Update(k,_) or Delete(k), through any further successful inserts,
updates and deletes of other keys — including later re-inserts of k
itself, whose duplicate entries land behind the original.  (When k
had been inserted before with a different value, Find keeps returning
the older value instead, as the counterexample shows.) -/
theorem C1_insert_then_find (H : Int → Nat) (B fuel fuel2 : Nat)
    (t t' t2 : HashTable) (k v : Int) (ops : List TOp)
    (hreach : ReachT H B t) (hfresh : Find H t k = none)
    (hins : Insert H B fuel t k v = some t')
    (havoid : ∀ op ∈ ops, (∀ v0, ¬ op = TOp.upd k v0) ∧ ¬ op = TOp.del k)
    (hops : applyTOps H B fuel2 ops t' = some t2) :
    Find H t2 k = some v := by
  have hwf := reachT_WF H B t hreach
  have hkeynil : keyEntries H t k = [] := by
    rw [Find_eq_keyEntries H t k hwf] at hfresh
    cases hk : (keyEntries H t k).head? with
    | none => exact List.head?_eq_none_iff.mp hk
    | some e => rw [hk] at hfresh; cases hfresh
  obtain ⟨hw1, hself, _, _⟩ := Insert_sound H B fuel t k v t' hwf hins
  have hhead1 : (keyEntries H t' k).head? = some ⟨k, v⟩ := by
    rw [hself, hkeynil]
    rfl
  obtain ⟨hw2, hhead2⟩ := applyTOps_keyHead H B fuel2 k v ops t' t2 hw1 hhead1 havoid hops
  rw [Find_eq_keyEntries H t2 k hw2, hhead2]
  rfl

/-- Witness for the amended C1: insert (5,1) into the fresh table,
then insert (7,2); Find(5) still returns 1. -/
theorem C1_insert_then_find_witness :
    ReachT natHash 3 newHashTable ∧
      Find natHash newHashTable 5 = none ∧
      Insert natHash 3 5 newHashTable 5 1 =
        some ⟨2, [0, 1, 2, 3], [⟨2, []⟩, ⟨2, [⟨5, 1⟩]⟩, ⟨2, []⟩, ⟨2, []⟩]⟩ ∧
      (∀ op ∈ [TOp.ins 7 2], (∀ v0, ¬ op = TOp.upd 5 v0) ∧ ¬ op = TOp.del 5) ∧
      applyTOps natHash 3 5 [TOp.ins 7 2]
          ⟨2, [0, 1, 2, 3], [⟨2, []⟩, ⟨2, [⟨5, 1⟩]⟩, ⟨2, []⟩, ⟨2, []⟩]⟩ =
        some ⟨2, [0, 1, 2, 3], [⟨2, []⟩, ⟨2, [⟨5, 1⟩]⟩, ⟨2, []⟩, ⟨2, [⟨7, 2⟩]⟩]⟩ ∧
      Find natHash ⟨2, [0, 1, 2, 3], [⟨2, []⟩, ⟨2, [⟨5, 1⟩]⟩, ⟨2, []⟩, ⟨2, [⟨7, 2⟩]⟩]⟩ 5 =
        some 1 := by
  have hr : ReachT natHash 3 newHashTable := ⟨0, [], rfl⟩
  have hins : Insert natHash 3 5 newHashTable 5 1 =
      some ⟨2, [0, 1, 2, 3], [⟨2, []⟩, ⟨2, [⟨5, 1⟩]⟩, ⟨2, []⟩, ⟨2, []⟩]⟩ := by decide
  have hops : applyTOps natHash 3 5 [TOp.ins 7 2]
      ⟨2, [0, 1, 2, 3], [⟨2, []⟩, ⟨2, [⟨5, 1⟩]⟩, ⟨2, []⟩, ⟨2, []⟩]⟩ =
      some ⟨2, [0, 1, 2, 3], [⟨2, []⟩, ⟨2, [⟨5, 1⟩]⟩, ⟨2, []⟩, ⟨2, [⟨7, 2⟩]⟩]⟩ := by decide
  have havoid : ∀ op ∈ [TOp.ins 7 2], (∀ v0, ¬ op = TOp.upd 5 v0) ∧ ¬ op = TOp.del 5 := by
    intro op hop
    simp at hop
    subst hop
    exact ⟨fun v0 hc => TOp.noConfusion hc, fun hc => TOp.noConfusion hc⟩
  exact ⟨hr, by decide, hins, havoid, hops,
    C1_insert_then_find natHash 3 5 5 newHashTable
      ⟨2, [0, 1, 2, 3], [⟨2, []⟩, ⟨2, [⟨5, 1⟩]⟩, ⟨2, []⟩, ⟨2, []⟩]⟩
      ⟨2, [0, 1, 2, 3], [⟨2, []⟩, ⟨2, [⟨5, 1⟩]⟩, ⟨2, []⟩, ⟨2, [⟨7, 2⟩]⟩]⟩
      5 1 [TOp.ins 7 2] hr (by decide) hins havoid hops⟩

/-! ## Join theorems -/

theorem transpose_transpose (u : Bool) (e : HashEntry) :
    transpose u (transpose u e) = e := by
  cases u <;> rfl

theorem keySide_transpose (u : Bool) (e : HashEntry) :
    keySide u (transpose u e) = e.key := by
  cases u <;> rfl

theorem transpose_key (u : Bool) (e : HashEntry) :
    (transpose u e).key = keySide u e := by
  cases u <;> rfl

theorem transpose_inj (u : Bool) (e1 e2 : HashEntry)
    (h : transpose u e1 = transpose u e2) : e1 = e2 := by
  have := congrArg (transpose u) h
  rw [transpose_transpose, transpose_transpose] at this
  exact this

theorem mem_flatten_map (l : List HashBucket) (e : HashEntry) :
    e ∈ (l.map (fun b => b.entries)).flatten ↔
      ∃ pn, pn < l.length ∧ e ∈ (l.getD pn ⟨0, []⟩).entries := by
  induction l with
  | nil =>
      constructor
      · intro h
        simp at h
      · rintro ⟨pn, hpn, _⟩
        simp at hpn
  | cons b bs ih =>
      simp only [List.map_cons, List.flatten_cons, List.mem_append, ih]
      constructor
      · intro h
        rcases h with h | ⟨pn, hpn, hm⟩
        · exact ⟨0, by simp, h⟩
        · exact ⟨pn + 1, by simpa using hpn, hm⟩
      · rintro ⟨pn, hpn, hm⟩
        cases pn with
        | zero => exact Or.inl hm
        | succ m =>
            right
            exact ⟨m, by simpa using hpn, hm⟩

theorem tableEntries_mem (t : HashTable) (e : HashEntry) :
    e ∈ tableEntries t ↔
      ∃ pn, pn < t.pages.length ∧ e ∈ (getPageB t pn).entries :=
  mem_flatten_map t.pages e

theorem count_getD_le_flatten (l : List HashBucket) (pn : Nat) (a : HashEntry)
    (h : pn < l.length) :
    ((l.getD pn ⟨0, []⟩).entries).count a ≤
      ((l.map (fun b => b.entries)).flatten).count a := by
  induction l generalizing pn with
  | nil => simp at h
  | cons b bs ih =>
      cases pn with
      | zero =>
          simp only [List.getD_cons_zero, List.map_cons, List.flatten_cons,
            List.count_append]
          omega
      | succ m =>
          simp only [List.getD_cons_succ, List.map_cons, List.flatten_cons,
            List.count_append]
          have := ih m (by simpa using h)
          omega

theorem count_page_le_tableEntries (t : HashTable) (pn : Nat) (a : HashEntry)
    (h : pn < t.pages.length) :
    ((getPageB t pn).entries).count a ≤ (tableEntries t).count a :=
  count_getD_le_flatten t.pages pn a h

/-- Every stored entry lives in the bucket its hash selects. -/
theorem TableWF_entriesLoc (H : Int → Nat) (t : HashTable) (hwf : TableWF H t) :
    ∀ pn, pn < t.pages.length → ∀ e ∈ (getPageB t pn).entries,
      dirSlot t (Hasher H e.key t.depth) = pn := by
  intro pn hpn e he
  obtain ⟨i, hi, hip⟩ := hwf.ptd pn hpn
  have hk := hwf.keys i hi e (by rw [hip]; exact he)
  rw [hip] at hk
  have hdq := hwf.ldep i hi
  rw [hip] at hdq
  have hh : Hasher H e.key t.depth < t.buckets.length := by
    rw [hwf.len]
    exact Nat.mod_lt _ (Nat.pos_pow_of_pos _ (by omega))
  have hc := hwf.cls i hi _ hh
  rw [hip] at hc
  have hmod : Hasher H e.key t.depth % 2 ^ (getPageB t pn).depth =
      H e.key % 2 ^ (getPageB t pn).depth := mod_pow_le _ _ _ hdq
  have := hc.mpr (by rw [hmod]; omega)
  exact this.symm

theorem extendN_pages (n : Nat) (t : HashTable) : (extendN n t).pages = t.pages := by
  induction n generalizing t with
  | zero => rfl
  | succ m ih =>
      show (extendN m (ExtendTable t)).pages = t.pages
      rw [ih (ExtendTable t)]
      rfl

theorem extendN_depth (n : Nat) (t : HashTable) : (extendN n t).depth = t.depth + n := by
  induction n generalizing t with
  | zero => rfl
  | succ m ih =>
      show (extendN m (ExtendTable t)).depth = t.depth + (m + 1)
      rw [ih (ExtendTable t)]
      show t.depth + 1 + m = t.depth + (m + 1)
      omega

theorem extendN_WF (H : Int → Nat) (n : Nat) (t : HashTable) (hwf : TableWF H t) :
    TableWF H (extendN n t) := by
  induction n generalizing t with
  | zero => exact hwf
  | succ m ih =>
      show TableWF H (extendN m (ExtendTable t))
      exact ih (ExtendTable t) (ExtendTable_WF H t hwf)

theorem tableEntries_extendN (n : Nat) (t : HashTable) :
    tableEntries (extendN n t) = tableEntries t := by
  unfold tableEntries
  rw [extendN_pages]

theorem alignTables_WF (H : Int → Nat) (lt0 rt0 : HashTable)
    (hl : TableWF H lt0) (hr : TableWF H rt0) :
    TableWF H (alignTables lt0 rt0).1 ∧ TableWF H (alignTables lt0 rt0).2 ∧
      (alignTables lt0 rt0).1.depth = (alignTables lt0 rt0).2.depth ∧
      tableEntries (alignTables lt0 rt0).1 = tableEntries lt0 ∧
      tableEntries (alignTables lt0 rt0).2 = tableEntries rt0 := by
  unfold alignTables
  by_cases h : lt0.depth < rt0.depth
  · rw [if_pos h]
    refine ⟨extendN_WF H _ _ hl, hr, ?_, tableEntries_extendN _ _, rfl⟩
    show (extendN (rt0.depth - lt0.depth) lt0).depth = rt0.depth
    rw [extendN_depth]
    omega
  · rw [if_neg h]
    refine ⟨hl, extendN_WF H _ _ hr, ?_, rfl, tableEntries_extendN _ _⟩
    show lt0.depth = (extendN (lt0.depth - rt0.depth) rt0).depth
    rw [extendN_depth]
    omega

theorem probeBuckets_ne (H1 H2 : Int → Nat → Nat) (fsize : Nat) (lb rb : HashBucket)
    (jl jr : Bool) (hd : ¬ lb.depth = rb.depth) :
    probeBuckets H1 H2 fsize lb rb jl jr = [] := by
  unfold probeBuckets
  rw [if_pos hd]

theorem probeBuckets_eq (H1 H2 : Int → Nat → Nat) (fsize : Nat) (lb rb : HashBucket)
    (jl jr : Bool) (hd : lb.depth = rb.depth) :
    probeBuckets H1 H2 fsize lb rb jl jr =
      rb.entries.flatMap (fun re =>
        if bloomContains H1 H2
            (bloomInsertAll H1 H2 (CreateFilter fsize) (lb.entries.map (fun e => e.key)))
            re.key then
          lb.entries.filterMap (fun le =>
            if le.key = re.key then some ⟨transpose jl le, transpose jr re⟩ else none)
        else []) := by
  unfold probeBuckets
  rw [if_neg (not_not_intro hd)]

/-- Membership characterization of a probe task's emissions: the local
depths agree and the pair restores a key-equal entry pair of the two
buckets.  The bloom gate never blocks a match because a matching left
key was inserted into the filter. -/
theorem probeBuckets_mem (H1 H2 : Int → Nat → Nat) (fsize : Nat) (lb rb : HashBucket)
    (jl jr : Bool) (p : EntryPair) :
    p ∈ probeBuckets H1 H2 fsize lb rb jl jr ↔
      (lb.depth = rb.depth ∧ ∃ le, le ∈ lb.entries ∧ ∃ re, re ∈ rb.entries ∧
        le.key = re.key ∧ p = ⟨transpose jl le, transpose jr re⟩) := by
  by_cases hd : lb.depth = rb.depth
  · rw [probeBuckets_eq H1 H2 fsize lb rb jl jr hd]
    simp only [List.mem_flatMap]
    constructor
    · rintro ⟨re, hre, hp⟩
      by_cases hb : bloomContains H1 H2
          (bloomInsertAll H1 H2 (CreateFilter fsize) (lb.entries.map (fun e => e.key)))
          re.key = true
      · rw [if_pos hb] at hp
        rcases List.mem_filterMap.mp hp with ⟨le, hle, hg⟩
        by_cases hk : le.key = re.key
        · rw [if_pos hk] at hg
          exact ⟨hd, le, hle, re, hre, hk, (Option.some.inj hg).symm⟩
        · rw [if_neg hk] at hg
          cases hg
      · rw [if_neg hb] at hp
        cases hp
    · rintro ⟨_, le, hle, re, hre, hk, hp⟩
      refine ⟨re, hre, ?_⟩
      have hb : bloomContains H1 H2
          (bloomInsertAll H1 H2 (CreateFilter fsize) (lb.entries.map (fun e => e.key)))
          re.key = true := by
        apply bloom_no_false_negative
        rw [← hk]
        exact List.mem_map_of_mem _ hle
      rw [if_pos hb]
      exact List.mem_filterMap.mpr ⟨le, hle, by rw [if_pos hk, hp]⟩
  · rw [probeBuckets_ne H1 H2 fsize lb rb jl jr hd]
    constructor
    · intro h
      cases h
    · rintro ⟨hd2, _⟩
      exact absurd hd2 hd

/-- An emitted pair, transposed back, is an entry pair of the probed
buckets with equal stored keys. -/
theorem probeBuckets_pair_src (H1 H2 : Int → Nat → Nat) (fsize : Nat)
    (lb rb : HashBucket) (jl jr : Bool) (p : EntryPair)
    (h : p ∈ probeBuckets H1 H2 fsize lb rb jl jr) :
    transpose jl p.l ∈ lb.entries ∧ transpose jr p.r ∈ rb.entries ∧
      (transpose jl p.l).key = (transpose jr p.r).key := by
  rcases (probeBuckets_mem H1 H2 fsize lb rb jl jr p).mp h with
    ⟨_, le, hle, re, hre, hk, hp⟩
  subst hp
  refine ⟨?_, ?_, ?_⟩
  · show transpose jl (transpose jl le) ∈ lb.entries
    rw [transpose_transpose]
    exact hle
  · show transpose jr (transpose jr re) ∈ rb.entries
    rw [transpose_transpose]
    exact hre
  · show (transpose jl (transpose jl le)).key = (transpose jr (transpose jr re)).key
    rw [transpose_transpose, transpose_transpose]
    exact hk

/-- Everything the probe dispatch loop emits comes from some bucket
pair's probe. -/
theorem probeAll_mem_sound (H1 H2 : Int → Nat → Nat) (fsize : Nat) (lt rt : HashTable)
    (jl jr : Bool) :
    ∀ (is : List Nat) (seen : List (Nat × Nat)) (p : EntryPair),
      p ∈ probeAll H1 H2 fsize lt rt jl jr is seen →
      ∃ a b, p ∈ probeBuckets H1 H2 fsize (getPageB lt a) (getPageB rt b) jl jr := by
  intro is
  induction is with
  | nil =>
      intro seen p h
      cases h
  | cons j is ih =>
      intro seen p h
      simp only [probeAll] at h
      by_cases hs : (dirSlot lt j, dirSlot rt j) ∈ seen
      · rw [if_pos hs] at h
        exact ih _ p h
      · rw [if_neg hs] at h
        rcases List.mem_append.mp h with h | h
        · exact ⟨dirSlot lt j, dirSlot rt j, h⟩
        · exact ih _ p h

/-- The probe dispatch loop emits everything the probe of an unseen
listed bucket pair emits. -/
theorem probeAll_complete (H1 H2 : Int → Nat → Nat) (fsize : Nat) (lt rt : HashTable)
    (jl jr : Bool) (p : EntryPair) :
    ∀ (is : List Nat) (seen : List (Nat × Nat)) (i : Nat), i ∈ is →
      p ∈ probeBuckets H1 H2 fsize (getPageB lt (dirSlot lt i))
        (getPageB rt (dirSlot rt i)) jl jr →
      (dirSlot lt i, dirSlot rt i) ∉ seen →
      p ∈ probeAll H1 H2 fsize lt rt jl jr is seen := by
  intro is
  induction is with
  | nil =>
      intro seen i hi
      cases hi
  | cons j is ih =>
      intro seen i hi hp hns
      simp only [probeAll]
      by_cases hs : (dirSlot lt j, dirSlot rt j) ∈ seen
      · rw [if_pos hs]
        rcases List.mem_cons.mp hi with rfl | hi2
        · exact absurd hs hns
        · exact ih seen i hi2 hp hns
      · rw [if_neg hs]
        by_cases heq : (dirSlot lt i, dirSlot rt i) = (dirSlot lt j, dirSlot rt j)
        · apply List.mem_append.mpr
          left
          have h1 : dirSlot lt i = dirSlot lt j := congrArg Prod.fst heq
          have h2 : dirSlot rt i = dirSlot rt j := congrArg Prod.snd heq
          rw [← h1, ← h2]
          exact hp
        · rcases List.mem_cons.mp hi with rfl | hi2
          · exact absurd rfl heq
          · apply List.mem_append.mpr
            right
            refine ih _ i hi2 hp ?_
            intro hmem
            rcases List.mem_cons.mp hmem with h | h
            · exact heq h
            · exact hns h

theorem count_filterMap_eq_zero {α β : Type} [DecidableEq β] (f : α → Option β)
    (l : List α) (p : β) (h : ∀ a ∈ l, ¬ f a = some p) :
    (l.filterMap f).count p = 0 := by
  rw [List.count_eq_zero]
  intro hm
  rcases List.mem_filterMap.mp hm with ⟨a, ha, hfa⟩
  exact h a ha hfa

/-- A filterMap hits a fixed target at most once when only one source
element can produce it and that element occurs at most once. -/
theorem count_filterMap_le_one {α β : Type} [DecidableEq α] [DecidableEq β]
    (f : α → Option β) (p : β) (x : α)
    (hx : ∀ a, f a = some p → a = x) :
    ∀ l : List α, l.count x ≤ 1 → (l.filterMap f).count p ≤ 1 := by
  intro l
  induction l with
  | nil =>
      intro _
      simp
  | cons a as ih =>
      intro hl
      cases hfa : f a with
      | none =>
          rw [List.filterMap_cons_none hfa]
          refine ih ?_
          by_cases hax : x = a
          · subst hax
            rw [List.count_cons_self] at hl
            omega
          · rw [List.count_cons_of_ne hax] at hl
            exact hl
      | some b =>
          rw [List.filterMap_cons_some hfa]
          by_cases hbp : b = p
          · subst hbp
            have hax : a = x := hx a hfa
            subst hax
            have h0 : as.count a = 0 := by
              rw [List.count_cons_self] at hl
              omega
            have hz : (as.filterMap f).count b = 0 := by
              apply count_filterMap_eq_zero
              intro a2 ha2 hfa2
              have hax2 := hx a2 hfa2
              subst hax2
              rw [List.count_eq_zero] at h0
              exact h0 ha2
            rw [List.count_cons_self, hz]
          · rw [List.count_cons_of_ne (fun he => hbp he.symm)]
            refine ih ?_
            by_cases hax : x = a
            · subst hax
              rw [List.count_cons_self] at hl
              omega
            · rw [List.count_cons_of_ne hax] at hl
              exact hl

theorem count_flatMap_eq_zero {α β : Type} [DecidableEq β] (f : α → List β)
    (l : List α) (p : β) (h : ∀ a ∈ l, p ∉ f a) :
    (l.flatMap f).count p = 0 := by
  rw [List.count_eq_zero]
  intro hm
  rcases List.mem_flatMap.mp hm with ⟨a, ha, hpa⟩
  exact h a ha hpa

/-- A flatMap hits a fixed target at most once when only one source
element can emit it, that element emits it at most once and occurs at
most once. -/
theorem count_flatMap_le_one {α β : Type} [DecidableEq α] [DecidableEq β]
    (f : α → List β) (p : β) (x : α)
    (hx : ∀ a, p ∈ f a → a = x) (hf : (f x).count p ≤ 1) :
    ∀ l : List α, l.count x ≤ 1 → (l.flatMap f).count p ≤ 1 := by
  intro l
  induction l with
  | nil =>
      intro _
      simp
  | cons a as ih =>
      intro hl
      rw [List.flatMap_cons, List.count_append]
      by_cases hax : a = x
      · subst hax
        have h0 : as.count a = 0 := by
          rw [List.count_cons_self] at hl
          omega
        have hz : (as.flatMap f).count p = 0 := by
          apply count_flatMap_eq_zero
          intro a2 ha2 hpa2
          have hax2 := hx a2 hpa2
          subst hax2
          rw [List.count_eq_zero] at h0
          exact h0 ha2
        omega
      · have h0 : (f a).count p = 0 := by
          rw [List.count_eq_zero]
          intro hpa
          exact hax (hx a hpa)
        have h1 : as.count x ≤ 1 := by
          rw [List.count_cons_of_ne (fun he => hax he.symm)] at hl
          exact hl
        have := ih h1
        omega

/-- A single probe emits a fixed pair at most once when the two source
entries it restores occur at most once in their buckets. -/
theorem probeBuckets_count_le_one (H1 H2 : Int → Nat → Nat) (fsize : Nat)
    (lb rb : HashBucket) (jl jr : Bool) (p : EntryPair)
    (hlc : lb.entries.count (transpose jl p.l) ≤ 1)
    (hrc : rb.entries.count (transpose jr p.r) ≤ 1) :
    (probeBuckets H1 H2 fsize lb rb jl jr).count p ≤ 1 := by
  by_cases hd : lb.depth = rb.depth
  · rw [probeBuckets_eq H1 H2 fsize lb rb jl jr hd]
    refine count_flatMap_le_one _ p (transpose jr p.r) ?_ ?_ rb.entries hrc
    · intro re hre
      by_cases hb : bloomContains H1 H2
          (bloomInsertAll H1 H2 (CreateFilter fsize) (lb.entries.map (fun e => e.key)))
          re.key = true
      · rw [if_pos hb] at hre
        rcases List.mem_filterMap.mp hre with ⟨le, hle, hg⟩
        by_cases hk : le.key = re.key
        · rw [if_pos hk] at hg
          rw [← Option.some.inj hg]
          exact (transpose_transpose jr re).symm
        · rw [if_neg hk] at hg
          cases hg
      · rw [if_neg hb] at hre
        cases hre
    · by_cases hb : bloomContains H1 H2
          (bloomInsertAll H1 H2 (CreateFilter fsize) (lb.entries.map (fun e => e.key)))
          (transpose jr p.r).key = true
      · rw [if_pos hb]
        refine count_filterMap_le_one _ p (transpose jl p.l) ?_ lb.entries hlc
        intro le hg
        by_cases hk : le.key = (transpose jr p.r).key
        · rw [if_pos hk] at hg
          rw [← Option.some.inj hg]
          exact (transpose_transpose jl le).symm
        · rw [if_neg hk] at hg
          cases hg
      · rw [if_neg hb]
        simp
  · rw [probeBuckets_ne H1 H2 fsize lb rb jl jr hd]
    simp

/-- A page's entry counts are bounded by the whole table's, also for
out-of-range page numbers (whose bucket is the empty default). -/
theorem page_count_le_table (t : HashTable) (a : Nat) (x : HashEntry) :
    ((getPageB t a).entries).count x ≤ (tableEntries t).count x := by
  by_cases ha : a < t.pages.length
  · exact count_page_le_tableEntries t a x ha
  · have h : getPageB t a = (⟨0, []⟩ : HashBucket) := by
      unfold getPageB
      exact List.getD_eq_default _ _ (by omega)
    rw [h]
    simp

/-- Under the invariant a pair can only be emitted by the probe of the
bucket pair its entries hash to: the probed pages are determined by the
pair. -/
theorem probe_slot_determined (H : Int → Nat) (H1 H2 : Int → Nat → Nat) (fsize : Nat)
    (lt rt : HashTable) (jl jr : Bool) (p : EntryPair)
    (hwl : TableWF H lt) (hwr : TableWF H rt) (a b : Nat)
    (h : p ∈ probeBuckets H1 H2 fsize (getPageB lt a) (getPageB rt b) jl jr) :
    a = dirSlot lt (Hasher H (transpose jl p.l).key lt.depth) ∧
      b = dirSlot rt (Hasher H (transpose jr p.r).key rt.depth) := by
  obtain ⟨hl, hr, _⟩ := probeBuckets_pair_src H1 H2 fsize _ _ jl jr p h
  constructor
  · by_cases ha : a < lt.pages.length
    · exact (TableWF_entriesLoc H lt hwl a ha _ hl).symm
    · exfalso
      have hd : getPageB lt a = (⟨0, []⟩ : HashBucket) := by
        unfold getPageB
        exact List.getD_eq_default _ _ (by omega)
      rw [hd] at hl
      cases hl
  · by_cases hb : b < rt.pages.length
    · exact (TableWF_entriesLoc H rt hwr b hb _ hr).symm
    · exfalso
      have hd : getPageB rt b = (⟨0, []⟩ : HashBucket) := by
        unfold getPageB
        exact List.getD_eq_default _ _ (by omega)
      rw [hd] at hr
      cases hr

/-- The probe dispatch loop emits a fixed pair at most once: every
single probe emits it at most once, only one bucket pair can emit it,
and the seen-list skips repeated bucket pairs. -/
theorem probeAll_count_le_one (H1 H2 : Int → Nat → Nat) (fsize : Nat)
    (lt rt : HashTable) (jl jr : Bool) (p : EntryPair)
    (hone : ∀ a b : Nat,
      (probeBuckets H1 H2 fsize (getPageB lt a) (getPageB rt b) jl jr).count p ≤ 1)
    (hdet : ∀ a b : Nat,
      p ∈ probeBuckets H1 H2 fsize (getPageB lt a) (getPageB rt b) jl jr →
      ∀ a2 b2 : Nat,
      p ∈ probeBuckets H1 H2 fsize (getPageB lt a2) (getPageB rt b2) jl jr →
      a = a2 ∧ b = b2) :
    ∀ (is : List Nat) (seen : List (Nat × Nat)),
      ((∃ q ∈ seen,
          p ∈ probeBuckets H1 H2 fsize (getPageB lt q.1) (getPageB rt q.2) jl jr) →
        (probeAll H1 H2 fsize lt rt jl jr is seen).count p = 0) ∧
      (probeAll H1 H2 fsize lt rt jl jr is seen).count p ≤ 1 := by
  intro is
  induction is with
  | nil =>
      intro seen
      constructor
      · intro _
        simp [probeAll]
      · simp [probeAll]
  | cons j is ih =>
      intro seen
      constructor
      · rintro ⟨q, hq, hpq⟩
        simp only [probeAll]
        by_cases hs : (dirSlot lt j, dirSlot rt j) ∈ seen
        · rw [if_pos hs]
          exact (ih seen).1 ⟨q, hq, hpq⟩
        · rw [if_neg hs, List.count_append]
          have hz1 : (probeBuckets H1 H2 fsize (getPageB lt (dirSlot lt j))
              (getPageB rt (dirSlot rt j)) jl jr).count p = 0 := by
            rw [List.count_eq_zero]
            intro hp
            obtain ⟨e1, e2⟩ := hdet _ _ hp _ _ hpq
            apply hs
            have hqe : (dirSlot lt j, dirSlot rt j) = q := by
              cases q with
              | mk q1 q2 => exact Prod.ext e1 e2
            rw [hqe]
            exact hq
          have hz2 := (ih ((dirSlot lt j, dirSlot rt j) :: seen)).1
            ⟨q, List.mem_cons_of_mem _ hq, hpq⟩
          omega
      · simp only [probeAll]
        by_cases hs : (dirSlot lt j, dirSlot rt j) ∈ seen
        · rw [if_pos hs]
          exact (ih seen).2
        · rw [if_neg hs, List.count_append]
          by_cases hp : p ∈ probeBuckets H1 H2 fsize (getPageB lt (dirSlot lt j))
              (getPageB rt (dirSlot rt j)) jl jr
          · have h1 := hone (dirSlot lt j) (dirSlot rt j)
            have h2 := (ih ((dirSlot lt j, dirSlot rt j) :: seen)).1
              ⟨(dirSlot lt j, dirSlot rt j), List.mem_cons_self _ _, hp⟩
            omega
          · have h1 : (probeBuckets H1 H2 fsize (getPageB lt (dirSlot lt j))
                (getPageB rt (dirSlot rt j)) jl jr).count p = 0 := by
              rw [List.count_eq_zero]
              exact hp
            have h2 := (ih ((dirSlot lt j, dirSlot rt j) :: seen)).2
            omega

open List in
/-- Folding Insert over a source list from a well-formed table keeps
the invariant and appends the (transposed) source entries to the
stored multiset. -/
theorem foldl_insert_sound (H : Int → Nat) (B fuel : Nat) (useKey : Bool) :
    ∀ (src : List HashEntry) (t0 t : HashTable), TableWF H t0 →
      src.foldlM (fun t e =>
        Insert H B fuel t (transpose useKey e).key (transpose useKey e).value) t0 =
          some t →
      TableWF H t ∧ tableEntries t ~ tableEntries t0 ++ src.map (transpose useKey) := by
  intro src
  induction src with
  | nil =>
      intro t0 t hwf h
      simp only [List.foldlM_nil, Option.pure_def] at h
      injection h with h
      subst h
      exact ⟨hwf, by simp⟩
  | cons e src ih =>
      intro t0 t hwf h
      rw [List.foldlM_cons] at h
      cases hI : Insert H B fuel t0 (transpose useKey e).key (transpose useKey e).value with
      | none =>
          rw [hI] at h
          cases h
      | some t1 =>
          rw [hI] at h
          obtain ⟨hwf1, _, _, hperm⟩ := Insert_sound H B fuel t0 _ _ t1 hwf hI
          obtain ⟨hwft, hpermt⟩ := ih t1 t hwf1 h
          refine ⟨hwft, ?_⟩
          have hperm2 : tableEntries t1 ~ tableEntries t0 ++ [transpose useKey e] := hperm
          have hstep : tableEntries t1 ++ src.map (transpose useKey) ~
              tableEntries t0 ++ (transpose useKey e :: src.map (transpose useKey)) := by
            have h3 := hperm2.append_right (src.map (transpose useKey))
            rw [List.append_assoc, List.singleton_append] at h3
            exact h3
          exact hpermt.trans hstep

open List in
/-- buildHashIndex produces a well-formed table storing exactly the
(transposed) source entries. -/
theorem buildHashIndex_sound (H : Int → Nat) (B fuel : Nat) (src : List HashEntry)
    (useKey : Bool) (t : HashTable)
    (h : buildHashIndex H B fuel src useKey = some t) :
    TableWF H t ∧ tableEntries t ~ src.map (transpose useKey) := by
  obtain ⟨hwf, hp⟩ :=
    foldl_insert_sound H B fuel useKey src newHashTable t (newHashTable_WF H) h
  refine ⟨hwf, ?_⟩
  have he : tableEntries newHashTable ++ src.map (transpose useKey) =
      src.map (transpose useKey) := rfl
  rw [he] at hp
  exact hp

open List in
/-- C6 (amended): every pair the grace hash join emits has equal
join-side keys, and under unique join-side keys no pair is emitted
more than once; but a matching input pair is only guaranteed to be
emitted when every aligned bucket pair has equal local depths (the
probe task otherwise fails its depth check before emitting anything,
as C6_counterexample shows), so the completeness part holds under that
condition. -/
theorem C6_join_sound_complete_unique (H : Int → Nat) (B fuel : Nat)
    (H1 H2 : Int → Nat → Nat) (fsize : Nat) (ls rs : List HashEntry)
    (jl jr : Bool) (out : List EntryPair)
    (hout : Join H B fuel H1 H2 fsize ls rs jl jr = some out) :
    (∀ p ∈ out, keySide jl p.l = keySide jr p.r) ∧
    (joinDepthsAligned H B fuel ls rs jl jr = true →
      ∀ le ∈ ls, ∀ re ∈ rs, keySide jl le = keySide jr re →
        (⟨le, re⟩ : EntryPair) ∈ out) ∧
    ((ls.map (keySide jl)).Nodup → (rs.map (keySide jr)).Nodup →
      ∀ p : EntryPair, out.count p ≤ 1) := by
  cases hbl : buildHashIndex H B fuel ls jl with
  | none =>
      exfalso
      unfold Join at hout
      rw [hbl] at hout
      cases hbr : buildHashIndex H B fuel rs jr with
      | none =>
          rw [hbr] at hout
          cases hout
      | some rt0 =>
          rw [hbr] at hout
          cases hout
  | some lt0 =>
  cases hbr : buildHashIndex H B fuel rs jr with
  | none =>
      exfalso
      unfold Join at hout
      rw [hbl, hbr] at hout
      cases hout
  | some rt0 =>
  have hout' : probeAll H1 H2 fsize (alignTables lt0 rt0).1 (alignTables lt0 rt0).2
      jl jr (List.range (alignTables lt0 rt0).1.buckets.length) [] = out := by
    have hJ : Join H B fuel H1 H2 fsize ls rs jl jr =
        some (probeAll H1 H2 fsize (alignTables lt0 rt0).1 (alignTables lt0 rt0).2
          jl jr (List.range (alignTables lt0 rt0).1.buckets.length) []) := by
      unfold Join
      rw [hbl, hbr]
    rw [hJ] at hout
    exact Option.some.inj hout
  obtain ⟨hwl0, hpl⟩ := buildHashIndex_sound H B fuel ls jl lt0 hbl
  obtain ⟨hwr0, hpr⟩ := buildHashIndex_sound H B fuel rs jr rt0 hbr
  obtain ⟨hwl, hwr, hdepth, hel, her⟩ := alignTables_WF H lt0 rt0 hwl0 hwr0
  refine ⟨?_, ?_, ?_⟩
  · intro p hp
    rw [← hout'] at hp
    obtain ⟨a, b, hpb⟩ := probeAll_mem_sound H1 H2 fsize _ _ jl jr _ _ p hp
    obtain ⟨_, _, hk⟩ := probeBuckets_pair_src H1 H2 fsize _ _ jl jr p hpb
    rw [transpose_key, transpose_key] at hk
    exact hk
  · intro hdep le hls re hrs hkey
    have hdep2 : pairedDepthsOK (alignTables lt0 rt0).1 (alignTables lt0 rt0).2
        = true := by
      unfold joinDepthsAligned at hdep
      rw [hbl, hbr] at hdep
      exact hdep
    have hkeq : (transpose jl le).key = (transpose jr re).key := by
      rw [transpose_key, transpose_key]
      exact hkey
    have hL : transpose jl le ∈ tableEntries (alignTables lt0 rt0).1 := by
      rw [hel]
      exact hpl.mem_iff.mpr (List.mem_map_of_mem _ hls)
    have hR : transpose jr re ∈ tableEntries (alignTables lt0 rt0).2 := by
      rw [her]
      exact hpr.mem_iff.mpr (List.mem_map_of_mem _ hrs)
    obtain ⟨a, ha, hea⟩ := (tableEntries_mem _ _).mp hL
    obtain ⟨b, hb, heb⟩ := (tableEntries_mem _ _).mp hR
    have hia := TableWF_entriesLoc H _ hwl a ha _ hea
    have hib := TableWF_entriesLoc H _ hwr b hb _ heb
    have hib2 : dirSlot (alignTables lt0 rt0).2
        (Hasher H (transpose jl le).key (alignTables lt0 rt0).1.depth) = b := by
      rw [hkeq, hdepth]
      exact hib
    have hilt : Hasher H (transpose jl le).key (alignTables lt0 rt0).1.depth <
        (alignTables lt0 rt0).1.buckets.length := by
      rw [hwl.len]
      exact Nat.mod_lt _ (Nat.pos_pow_of_pos _ (by omega))
    have hdeq : (getPageB (alignTables lt0 rt0).1 (dirSlot (alignTables lt0 rt0).1
          (Hasher H (transpose jl le).key (alignTables lt0 rt0).1.depth))).depth =
        (getPageB (alignTables lt0 rt0).2 (dirSlot (alignTables lt0 rt0).2
          (Hasher H (transpose jl le).key (alignTables lt0 rt0).1.depth))).depth := by
      unfold pairedDepthsOK at hdep2
      have hall := List.all_eq_true.mp hdep2 _ (List.mem_range.mpr hilt)
      simpa using hall
    have hprobe : (⟨le, re⟩ : EntryPair) ∈ probeBuckets H1 H2 fsize
        (getPageB (alignTables lt0 rt0).1 (dirSlot (alignTables lt0 rt0).1
          (Hasher H (transpose jl le).key (alignTables lt0 rt0).1.depth)))
        (getPageB (alignTables lt0 rt0).2 (dirSlot (alignTables lt0 rt0).2
          (Hasher H (transpose jl le).key (alignTables lt0 rt0).1.depth)))
        jl jr := by
      rw [probeBuckets_mem]
      refine ⟨hdeq, transpose jl le, ?_, transpose jr re, ?_, hkeq, ?_⟩
      · rw [hia]
        exact hea
      · rw [hib2]
        exact heb
      · show (⟨le, re⟩ : EntryPair) =
          ⟨transpose jl (transpose jl le), transpose jr (transpose jr re)⟩
        rw [transpose_transpose, transpose_transpose]
    rw [← hout']
    exact probeAll_complete H1 H2 fsize _ _ jl jr _ _ _ _
      (List.mem_range.mpr hilt) hprobe (by simp)
  · intro hnl hnr p
    rw [← hout']
    have hndl : (ls.map (transpose jl)).Nodup := by
      apply List.Nodup.of_map (fun e : HashEntry => e.key)
      rw [List.map_map]
      have hfe : ((fun e : HashEntry => e.key) ∘ transpose jl) = keySide jl := by
        funext e
        exact transpose_key jl e
      rw [hfe]
      exact hnl
    have hndr : (rs.map (transpose jr)).Nodup := by
      apply List.Nodup.of_map (fun e : HashEntry => e.key)
      rw [List.map_map]
      have hfe : ((fun e : HashEntry => e.key) ∘ transpose jr) = keySide jr := by
        funext e
        exact transpose_key jr e
      rw [hfe]
      exact hnr
    have hcl : ∀ x : HashEntry,
        (tableEntries (alignTables lt0 rt0).1).count x ≤ 1 := by
      intro x
      rw [hel, hpl.count_eq]
      exact List.nodup_iff_count_le_one.mp hndl x
    have hcr : ∀ x : HashEntry,
        (tableEntries (alignTables lt0 rt0).2).count x ≤ 1 := by
      intro x
      rw [her, hpr.count_eq]
      exact List.nodup_iff_count_le_one.mp hndr x
    have hone : ∀ a b : Nat, (probeBuckets H1 H2 fsize
        (getPageB (alignTables lt0 rt0).1 a) (getPageB (alignTables lt0 rt0).2 b)
        jl jr).count p ≤ 1 := by
      intro a b
      exact probeBuckets_count_le_one H1 H2 fsize _ _ jl jr p
        (le_trans (page_count_le_table _ a _) (hcl _))
        (le_trans (page_count_le_table _ b _) (hcr _))
    have hdet : ∀ a b : Nat, p ∈ probeBuckets H1 H2 fsize
        (getPageB (alignTables lt0 rt0).1 a) (getPageB (alignTables lt0 rt0).2 b)
        jl jr →
        ∀ a2 b2 : Nat, p ∈ probeBuckets H1 H2 fsize
        (getPageB (alignTables lt0 rt0).1 a2) (getPageB (alignTables lt0 rt0).2 b2)
        jl jr →
        a = a2 ∧ b = b2 := by
      intro a b h1 a2 b2 h2
      obtain ⟨e1, e2⟩ := probe_slot_determined H H1 H2 fsize _ _ jl jr p hwl hwr a b h1
      obtain ⟨e3, e4⟩ := probe_slot_determined H H1 H2 fsize _ _ jl jr p hwl hwr a2 b2 h2
      exact ⟨e1.trans e3.symm, e2.trans e4.symm⟩
    exact (probeAll_count_le_one H1 H2 fsize _ _ jl jr p hone hdet _ []).2

/-- C6 counterexample: joining [(0,10),(4,11),(8,12)] with [(0,20)] on
both keys with BUCKETSIZE 3 splits the left zero bucket to local depth
3 while the right zero bucket stays at depth 2, so the probe task for
that pair fails its depth check and emits nothing; the matching input
pair (0,10)-(0,20) is never produced, refuting the unconditional
at-least-once part of the claim. -/
theorem C6_counterexample :
    Join natHash 3 20 posHash1 posHash2 1024
        [⟨0, 10⟩, ⟨4, 11⟩, ⟨8, 12⟩] [⟨0, 20⟩] true true = some [] ∧
      (⟨0, 10⟩ : HashEntry) ∈ [(⟨0, 10⟩ : HashEntry), ⟨4, 11⟩, ⟨8, 12⟩] ∧
      (⟨0, 20⟩ : HashEntry) ∈ [(⟨0, 20⟩ : HashEntry)] ∧
      keySide true ⟨0, 10⟩ = keySide true ⟨0, 20⟩ := by
  refine ⟨?_, ?_, ?_, ?_⟩ <;> decide

/-- Witness for the amended C6 on a concrete join: the matching pairs
(2,11)-(2,20) and (3,12)-(3,21) are emitted, every emission is
key-equal, and the first pair is emitted exactly once. -/
theorem C6_join_sound_complete_unique_witness :
    ((⟨⟨2, 11⟩, ⟨2, 20⟩⟩ : EntryPair) ∈
        [(⟨⟨2, 11⟩, ⟨2, 20⟩⟩ : EntryPair), ⟨⟨3, 12⟩, ⟨3, 21⟩⟩] ∧
      (∀ p ∈ [(⟨⟨2, 11⟩, ⟨2, 20⟩⟩ : EntryPair), ⟨⟨3, 12⟩, ⟨3, 21⟩⟩],
        keySide true p.l = keySide true p.r) ∧
      ([(⟨⟨2, 11⟩, ⟨2, 20⟩⟩ : EntryPair), ⟨⟨3, 12⟩, ⟨3, 21⟩⟩].count
        (⟨⟨2, 11⟩, ⟨2, 20⟩⟩ : EntryPair)) ≤ 1) := by
  have h := C6_join_sound_complete_unique natHash 5 20 posHash1 posHash2 1024
    [⟨1, 10⟩, ⟨2, 11⟩, ⟨3, 12⟩] [⟨2, 20⟩, ⟨3, 21⟩, ⟨4, 22⟩] true true
    [⟨⟨2, 11⟩, ⟨2, 20⟩⟩, ⟨⟨3, 12⟩, ⟨3, 21⟩⟩] rfl
  exact ⟨h.2.1 (by decide) ⟨2, 11⟩ (by decide) ⟨2, 20⟩ (by decide) rfl,
    h.1, h.2.2 (by decide) (by decide) _⟩
